import Mathlib

/-!
# Delaunay triangulation (`delaunay/delaunay.go`): a shallow embedding

The Go package works on `float64`.  The embedding keeps the control flow and
the formulas of the source and replaces `float64` by exact arithmetic:

* a finite coordinate is a rational number (`ℚ`) and the arithmetic on
  coordinates is exact: the rounding of the `float64` operations is not
  modelled, so what is proved of a computed value (a circumcenter, a radius, a
  vertex of the super-triangle) is proved of the exact value;
* the comparisons with `eps` are decided as the source decides them on
  `float64` values (see `absLtEps`);
* a computed value that IEEE-754 arithmetic can make non-finite (a division
  by zero in `Triangle.circumcenter`) is a `Flt`: a rational, `+Inf`, `-Inf`
  or `NaN`, with the IEEE rules for the four operations and the comparisons;
* the result of `math.Sqrt` is kept symbolic: `Sqrt.mk s` stands for `√s`,
  and the comparisons of the source are decided on the radicands;
* `Point.AngleTo` is computed exactly by counting half-turns (see `AngleTo`);
* the iteration order of the Go map in `TriangulationStep` is a parameter.
-/

namespace Delaunay

/-! ## Numbers -/

/-- The constant `eps = 1e-6` as the `float64` it is in the source: the nearest
`float64` to `1e-6`, which is `4722366482869645 / 2^72`. -/
def eps : ℚ := 4722366482869645 / 4722366482869645213696

/-- The test `math.Abs(a - b) < eps` of the source, as a function of the exact
difference `x` of the `float64` values `a` and `b`.

The source compares the `float64` difference, which is `x` rounded to the
nearest `float64`, ties to even.  The `float64` just below `eps` is
`eps - 2^-72` and its mantissa is even, so the rounded difference is below
`eps` exactly when `|x|` is at most the midpoint `eps - 2^-73` of the two. -/
def absLtEps (x : ℚ) : Bool := decide (|x| ≤ eps - 1 / 9444732965739290427392)

/-- A `float64` value without rounding: a rational, `+Inf`, `-Inf` or `NaN`.
Zero is unsigned and behaves as `+0`. -/
inductive Flt where
  | fin (q : ℚ)
  | pinf
  | ninf
  | nan
  deriving DecidableEq, Repr

namespace Flt

/-- Sign of a value that is not `NaN`: `1`, `0` or `-1`. -/
def sign : Flt → ℤ
  | fin q => if 0 < q then 1 else if q < 0 then -1 else 0
  | pinf => 1
  | ninf => -1
  | nan => 0

/-- Unary minus. -/
def neg : Flt → Flt
  | fin q => fin (-q)
  | pinf => ninf
  | ninf => pinf
  | nan => nan

/-- IEEE addition: `Inf + (-Inf)` is `NaN`. -/
def add : Flt → Flt → Flt
  | nan, _ => nan
  | _, nan => nan
  | fin a, fin b => fin (a + b)
  | fin _, pinf => pinf
  | fin _, ninf => ninf
  | pinf, fin _ => pinf
  | ninf, fin _ => ninf
  | pinf, pinf => pinf
  | ninf, ninf => ninf
  | pinf, ninf => nan
  | ninf, pinf => nan

/-- IEEE subtraction. -/
def sub (a b : Flt) : Flt := add a (neg b)

/-- IEEE multiplication: `0 * Inf` is `NaN`. -/
def mul : Flt → Flt → Flt
  | nan, _ => nan
  | _, nan => nan
  | fin a, fin b => fin (a * b)
  | a, b =>
    if sign a * sign b = 0 then nan
    else if 0 < sign a * sign b then pinf else ninf

/-- IEEE division: `x / 0` is `±Inf` for `x ≠ 0` (the zero counts as `+0`),
`0 / 0` and `Inf / Inf` are `NaN`, and a finite value over `±Inf` is `0`. -/
def div : Flt → Flt → Flt
  | nan, _ => nan
  | _, nan => nan
  | fin a, fin b =>
    if b ≠ 0 then fin (a / b)
    else if 0 < a then pinf else if a < 0 then ninf else nan
  | fin _, _ => fin 0
  | a, fin b =>
    if 0 < sign a * (if b < 0 then -1 else 1) then pinf else ninf
  | _, _ => nan

instance : Neg Flt := ⟨neg⟩
instance : Add Flt := ⟨add⟩
instance : Sub Flt := ⟨sub⟩
instance : Mul Flt := ⟨mul⟩
instance : Div Flt := ⟨div⟩
instance : Coe ℚ Flt := ⟨fin⟩

/-- IEEE `a <= b`: false as soon as one side is `NaN`. -/
def le : Flt → Flt → Bool
  | nan, _ => false
  | _, nan => false
  | ninf, _ => true
  | _, pinf => true
  | pinf, _ => false
  | _, ninf => false
  | fin a, fin b => decide (a ≤ b)

/-- Whether the value is a rational. -/
def isFinite : Flt → Bool
  | fin _ => true
  | _ => false

end Flt

/-- The value `math.Sqrt(radicand)`, kept symbolic. -/
structure Sqrt where
  radicand : Flt
  deriving DecidableEq, Repr

namespace Sqrt

/-- The float constant `0`, which is `√0`. -/
def zero : Sqrt := ⟨Flt.fin 0⟩

/-- Whether `math.Sqrt` returns `NaN`: the radicand is `NaN` or negative. -/
def isNaN : Sqrt → Bool
  | ⟨Flt.nan⟩ => true
  | ⟨Flt.ninf⟩ => true
  | ⟨Flt.fin q⟩ => decide (q < 0)
  | ⟨Flt.pinf⟩ => false

/-- The comparison `a <= r` of a `float64` with a square root:
with `r = √s` and `s ≥ 0` finite, `a ≤ √s` iff `a ≤ 0` or `a² ≤ s`. -/
def geFlt (r : Sqrt) (a : Flt) : Bool :=
  if r.isNaN then false
  else match a, r.radicand with
    | Flt.nan, _ => false
    | _, Flt.pinf => true
    | Flt.ninf, _ => true
    | Flt.pinf, _ => false
    | Flt.fin x, Flt.fin s => decide (x ≤ 0 ∨ x * x ≤ s)
    | _, _ => false

/-- The comparison `r > 0`. -/
def pos (r : Sqrt) : Bool :=
  match r.radicand with
  | Flt.fin s => decide (0 < s)
  | Flt.pinf => true
  | _ => false

/-- The comparison `d <= r` of two square roots: on the radicands. -/
def le (d r : Sqrt) : Bool :=
  if d.isNaN || r.isNaN then false else Flt.le d.radicand r.radicand

end Sqrt

/-! ## Points -/

/-- The type `Point`, for the vertices: finite coordinates. -/
structure Point where
  X : ℚ
  Y : ℚ
  deriving DecidableEq, Repr

/-- The type `Point` where the source stores a computed circumcenter, whose
coordinates can be non-finite. -/
structure FPoint where
  X : Flt
  Y : Flt
  deriving DecidableEq, Repr

/-- `NewPoint`. -/
def NewPoint (x y : ℚ) : Point := ⟨x, y⟩

/-- A vertex read as a `Point` with `float64` coordinates. -/
def Point.toF (p : Point) : FPoint := ⟨Flt.fin p.X, Flt.fin p.Y⟩

/-- `Point.CompareTo`. -/
def Point.CompareTo (p other : Point) : ℤ :=
  if p = other then 0
  else if p.X > other.X ∨ (absLtEps (p.X - other.X) ∧ p.Y > other.Y) then 1
  else 0

/-- `Point.Distance`: `math.Sqrt(dx*dx + dy*dy)`, the exact sum under a symbolic
square root; the source rounds each operation. -/
def FPoint.Distance (p other : FPoint) : Sqrt :=
  let dx := other.X - p.X
  let dy := other.Y - p.Y
  ⟨dx * dx + dy * dy⟩

/-- `Point.Distance` between two vertices. -/
def Point.Distance (p other : Point) : Sqrt := p.toF.Distance other.toF

/-- Whether the complex number `re + i*im` lies in the open lower half-plane
or on the negative real axis, that is, whether its argument taken in
`[0, 2π)` is at least `π`. -/
def lowerHalf (re im : ℤ) : Bool := decide (im < 0 ∨ (im = 0 ∧ re < 0))

/-- The powers `w, w², …, w^n` of `w = a + i*b`, from the current power
`re + i*im` whose half-plane is `st`: the number of changes of half-plane added
to `c`, and the last power, negated when it ends in the lower half-plane. -/
def halfTurns (a b : ℤ) : ℕ → ℤ → ℤ → Bool → ℕ → ℕ × ℤ × ℤ
  | 0, re, im, st, c => (c, if st then (-re, -im) else (re, im))
  | n + 1, re, im, st, c =>
    halfTurns a b n (re * a - im * b) (re * b + im * a)
      (lowerHalf (re * a - im * b) (re * b + im * a))
      (if lowerHalf (re * a - im * b) (re * b + im * a) = st then c else c + 1)

/-- One digit of `⌊N·θ/π⌋`: for a direction `w` of argument `β ∈ [0, π)` and a
factor `m`, the number `q = ⌊m·β/π⌋` of half-turns made by `w, …, w^m` is
appended to the digits read so far, and `w` becomes the direction of argument
`m·β - q·π ∈ [0, π)`. -/
def bucketStage (acc : ℕ × ℤ × ℤ) (m : ℕ) : ℕ × ℤ × ℤ :=
  match halfTurns acc.2.1 acc.2.2 m 1 0 false 0 with
  | (q, w) => (acc.1 * m + q, w)

/-- The value `int(360.0*math.Atan2(y, x)/math.Pi+360) % 360`, exactly.

With `φ = atan2(y, x) ∈ (-π, π]` the source computes `⌊360φ/π + 360⌋ mod 360`.
Replacing `φ` by `φ + π` adds `360` before the reduction, so the result only
depends on the direction `±(x + i*y)`; take the representative `u` with
argument `θ ∈ [0, π)`.  Then the result is `⌊360θ/π⌋`, the number of multiples
of `π` in `(0, 360θ]`.  Since `θ < π`, each step from `jθ` to `(j+1)θ` passes at
most one multiple of `π`, exactly when `u^j` and `u^(j+1)` lie in different
half-planes, so the 360 steps can be counted one by one (`[360]` in place of
`[8, 9, 5]` below).  The count is taken digit by digit instead,
`360 = 8 * 9 * 5`, which needs 22 steps.  The direction is scaled to integers
first. -/
def atan2Bucket (y x : ℚ) : ℤ :=
  let a : ℤ := x.num * y.den
  let b : ℤ := y.num * x.den
  if b < 0 ∨ (b = 0 ∧ a < 0) then (([8, 9, 5] : List ℕ).foldl bucketStage (0, -a, -b)).1
  else (([8, 9, 5] : List ℕ).foldl bucketStage (0, a, b)).1

/-- `Point.AngleTo`. -/
def Point.AngleTo (p other : Point) : ℤ :=
  atan2Bucket (other.X - p.X) (other.Y - p.Y)

/-! ## Edges -/

/-- The type `Edge`. -/
structure Edge where
  P1 : Point
  P2 : Point
  deriving DecidableEq, Repr

/-- `NewEdge`. -/
def NewEdge (p1 p2 : Point) : Edge :=
  if p2.CompareTo p1 > 0 then ⟨p2, p1⟩ else ⟨p1, p2⟩

/-- `Edge.Center`. -/
def Edge.Center (e : Edge) : Point :=
  NewPoint (e.P1.X + (e.P2.X - e.P1.X) / 2) (e.P1.Y + (e.P2.Y - e.P1.Y) / 2)

/-- `Edge.IsHorizontal`. -/
def Edge.IsHorizontal (e : Edge) : Bool := absLtEps (e.P1.Y - e.P2.Y)

/-! ## Triangles -/

/-- The type `Triangle`. -/
structure Triangle where
  P1 : Point
  P2 : Point
  P3 : Point
  Circumcenter : FPoint
  Circumradius : Sqrt
  deriving DecidableEq, Repr

/-- `Triangle.Edge`: `none` stands for the `panic` after the `switch`.  The
remainder `index % 3` of Go truncates towards zero (`Int.tmod`). -/
def Triangle.Edge (t : Triangle) (index : ℤ) : Option Delaunay.Edge :=
  match Int.tmod index 3 with
  | 0 => some (NewEdge t.P1 t.P2)
  | 1 => some (NewEdge t.P2 t.P3)
  | 2 => some (NewEdge t.P3 t.P1)
  | _ => none

/-- The call `t.Edge(0)`. -/
def Triangle.Edge0 (t : Triangle) : Delaunay.Edge := NewEdge t.P1 t.P2

/-- The call `t.Edge(1)`. -/
def Triangle.Edge1 (t : Triangle) : Delaunay.Edge := NewEdge t.P2 t.P3

/-- The call `t.Edge(2)`. -/
def Triangle.Edge2 (t : Triangle) : Delaunay.Edge := NewEdge t.P3 t.P1

/-- `Triangle.Edges`. -/
def Triangle.Edges (t : Triangle) : List Delaunay.Edge := [t.Edge0, t.Edge1, t.Edge2]

/-- `Triangle.Vertices`. -/
def Triangle.Vertices (t : Triangle) : List Point := [t.P1, t.P2, t.P3]

/-- The slope `-1 / ((e.P2.Y - e.P1.Y) / (e.P2.X - e.P1.X))` of the
perpendicular bisector of an edge. -/
def Edge.bisectorSlope (e : Edge) : Flt :=
  Flt.fin (-1) / (Flt.fin (e.P2.Y - e.P1.Y) / Flt.fin (e.P2.X - e.P1.X))

/-- `Triangle.circumcenter`.  The slopes, the intersection of the two bisectors
and the radius are the exact values; the source rounds each operation. -/
def Triangle.circumcenter (t : Triangle) : FPoint × Sqrt :=
  if absLtEps (t.P1.Y - t.P2.Y) && absLtEps (t.P2.Y - t.P3.Y) then
    (⟨Flt.fin 0, Flt.fin 0⟩, Sqrt.zero)
  else
    let e1 := if t.Edge0.IsHorizontal then t.Edge2 else t.Edge0
    let e2 := if t.Edge0.IsHorizontal then t.Edge1
      else if t.Edge1.IsHorizontal then t.Edge2 else t.Edge1
    let c1 := e1.Center
    let c2 := e2.Center
    let m1 := e1.bisectorSlope
    let m2 := e2.bisectorSlope
    let b1 := Flt.fin c1.Y - m1 * Flt.fin c1.X
    let b2 := Flt.fin c2.Y - m2 * Flt.fin c2.X
    let cx := (b2 - b1) / (m1 - m2)
    let cy := m1 * cx + b1
    let center : FPoint := ⟨cx, cy⟩
    (center, center.Distance e1.P1.toF)

/-- The inner loop of Go's insertion sort (`insertionSortLessFunc`, which
`sort.Slice` runs on slices of at most 12 elements): the new element `x`
moves left while `less x y` holds for its left neighbour `y`.  The sorted
prefix is held reversed, its last element first. -/
def sinkLeft {α : Type} (less : α → α → Bool) (x : α) : List α → List α
  | [] => [x]
  | y :: rest => if less x y then y :: sinkLeft less x rest else x :: y :: rest

/-- `sort.Slice(data, less)` as the insertion sort of Go, which is what
`sort.Slice` runs on the three vertices of `NewTriangle`.  On the points of
`InitDelaunay` the result is the one of every sorting algorithm as soon as the
x-coordinates are distinct. -/
def sortSlice {α : Type} (less : α → α → Bool) (data : List α) : List α :=
  (data.foldl (fun acc x => sinkLeft less x acc) []).reverse

/-- `NewTriangle`. -/
def NewTriangle (p1 p2 p3 : Point) : Triangle :=
  let center := NewPoint ((p1.X + p2.X + p3.X) / 3) ((p1.Y + p2.Y + p3.Y) / 3)
  let vertices := sortSlice
    (fun a b => decide (center.AngleTo a > center.AngleTo b)) [p1, p2, p3]
  match vertices with
  | [v0, v1, v2] =>
    match Triangle.circumcenter ⟨v0, v1, v2, ⟨Flt.fin 0, Flt.fin 0⟩, Sqrt.zero⟩ with
    | (c, r) => ⟨v0, v1, v2, c, r⟩
  | _ => ⟨p1, p2, p3, ⟨Flt.fin 0, Flt.fin 0⟩, Sqrt.zero⟩

/-- `Triangle.UsesAnyOfVertices`; the map `vertices` is given by its keys. -/
def Triangle.UsesAnyOfVertices (t : Triangle) (vertices : List Point) : Bool :=
  t.Vertices.any (fun tv => decide (tv ∈ vertices))

/-- `Triangle.UsesAnyOf`: the slice is first turned into a map. -/
def Triangle.UsesAnyOf (t : Triangle) (vertices : List Point) : Bool :=
  t.Vertices.any (fun tv => decide (tv ∈ vertices))

/-! ## The super-triangle -/

/-- `reduce`. -/
def reduce (points : List Point) (initial : ℚ) (reducer : ℚ → Point → ℚ) : ℚ :=
  points.foldl reducer initial

/-- `reduceMinX`. -/
def reduceMinX (prev : ℚ) (pt : Point) : ℚ := if pt.X < prev then pt.X else prev

/-- `reduceMinY`. -/
def reduceMinY (prev : ℚ) (pt : Point) : ℚ := if pt.Y < prev then pt.Y else prev

/-- `reduceMaxX`. -/
def reduceMaxX (prev : ℚ) (pt : Point) : ℚ := if pt.X > prev then pt.X else prev

/-- `reduceMaxY`. -/
def reduceMaxY (prev : ℚ) (pt : Point) : ℚ := if pt.Y > prev then pt.Y else prev

/-- The constant `offset = 2`. -/
def offset : ℚ := 2

/-- `math.MaxInt64` as the `float64` argument of `reduce`: the conversion
rounds `2^63 - 1` to `2^63`. -/
def maxInt64 : ℚ := 9223372036854775808

/-- `math.MinInt64` as a `float64`: `-2^63`. -/
def minInt64 : ℚ := -9223372036854775808

/-- `boundingTriangle`.  The vertices are the exact values; the source rounds
each operation, which matters for coordinates so large that `offset` is below
the spacing of the `float64` values. -/
def boundingTriangle (points : List Point) : Triangle :=
  let minX := reduce points maxInt64 reduceMinX
  let maxX := reduce points minInt64 reduceMaxX
  let minY := reduce points maxInt64 reduceMinY
  let maxY := reduce points minInt64 reduceMaxY
  let bottomLeft := NewPoint (minX - offset) (maxY + offset)
  let topRight := NewPoint (maxX + offset) (minY - offset)
  let m := -1 / ((topRight.Y - bottomLeft.Y) / (topRight.X - bottomLeft.X - offset))
  let b := topRight.Y - m * topRight.X
  let topLeft := NewPoint bottomLeft.X (m * bottomLeft.X + b)
  let bottomRight := NewPoint ((bottomLeft.Y - b) / m) bottomLeft.Y
  NewTriangle topLeft bottomRight (NewPoint (minX - offset * 5) (maxY + offset * 5))

/-! ## The triangulation state -/

/-- The type `Delaunay`; the map `superTriangleVertices` is given by its keys. -/
structure Delaunay where
  triangles : List Triangle
  supertriangle : Triangle
  points : List Point
  superTriangleVertices : List Point
  deriving DecidableEq, Repr

/-- `Delaunay.Finalize`. -/
def Delaunay.Finalize (d : Delaunay) : Delaunay :=
  { d with triangles :=
      d.triangles.filter (fun t => !t.UsesAnyOfVertices d.superTriangleVertices) }

/-- `Delaunay.PointCount`. -/
def Delaunay.PointCount (d : Delaunay) : ℕ := d.points.length

/-- `Delaunay.Points`. -/
def Delaunay.Points (d : Delaunay) : List Point := d.points

/-- `Delaunay.Triangles`. -/
def Delaunay.Triangles (d : Delaunay) : List Triangle := d.triangles

/-- `Delaunay.SupertriangleVertices`. -/
def Delaunay.SupertriangleVertices (d : Delaunay) : List Point :=
  d.superTriangleVertices

/-- The map `edges` of `TriangulationStep`, `map[Edge]int`, as the list of its
entries, each key once. -/
abbrev EdgeMap := List (Edge × ℕ)

/-- The statement `edges[e] += 1`. -/
def EdgeMap.incr : EdgeMap → Edge → EdgeMap
  | [], e => [(e, 1)]
  | (k, c) :: m, e => if k = e then (k, c + 1) :: m else (k, c) :: EdgeMap.incr m e

/-- The order in which a `range` statement visits the entries of a Go map: any
rearrangement of the entries, which Go leaves unspecified. -/
abbrev MapOrder := EdgeMap → EdgeMap

/-- A `MapOrder` visits every entry of the map exactly once. -/
def MapOrder.Valid (order : MapOrder) : Prop := ∀ m, (order m).Perm m

/-- The test of `TriangulationStep` that removes the triangle `t` for the point
`v`: the pruning check `v.X - t.Circumcenter.X <= t.Circumradius` and then
`t.Circumradius > 0 && v.Distance(t.Circumcenter) <= t.Circumradius`. -/
def Triangle.removedBy (t : Triangle) (v : Point) : Bool :=
  if t.Circumradius.geFlt (Flt.fin v.X - t.Circumcenter.X) then
    if t.Circumradius.pos && (v.toF.Distance t.Circumcenter).le t.Circumradius then
      true
    else
      false
  else
    false

/-- The first loop of `TriangulationStep`, on the triangles from index `tidx`
on: `kept` holds the triangles before `tidx`, which stay, last one first, and
`edges` the counts so far.  Returns the final `d.triangles` and `edges`. -/
def scanTriangles (v : Point) :
    List Triangle → List Triangle → EdgeMap → List Triangle × EdgeMap
  | [], kept, edges => (kept.reverse, edges)
  | t :: rest, kept, edges =>
    if t.removedBy v then
      scanTriangles v rest kept (t.Edges.foldl EdgeMap.incr edges)
    else
      scanTriangles v rest (t :: kept) edges

/-- The second loop of `TriangulationStep`: one new triangle for each entry of
count 1, in the order the map is visited. -/
def newTriangles (v : Point) (entries : EdgeMap) : List Triangle :=
  entries.filterMap
    (fun ec => if ec.2 = 1 then some (NewTriangle v ec.1.P1 ec.1.P2) else none)

/-- `Delaunay.TriangulationStep`. -/
def Delaunay.TriangulationStep (order : MapOrder) (d : Delaunay) (v : Point) :
    Delaunay :=
  match scanTriangles v d.triangles [] [] with
  | (kept, edges) => { d with triangles := kept ++ newTriangles v (order edges) }

/-- `InitDelaunay`. -/
def InitDelaunay (points : List Point) : Delaunay :=
  let supertriangle := boundingTriangle points
  { triangles := [supertriangle]
    supertriangle := supertriangle
    points := sortSlice (fun a b => decide (a.X < b.X))
      (points ++ supertriangle.Vertices)
    superTriangleVertices := supertriangle.Vertices }

/-- The loop of `Triangulate`: `TriangulationStep` for each point in turn; the
`k`-th call visits its map in the order `orders k`. -/
def Delaunay.steps (orders : ℕ → MapOrder) : ℕ → List Point → Delaunay → Delaunay
  | _, [], d => d
  | k, v :: vs, d => Delaunay.steps orders (k + 1) vs (d.TriangulationStep (orders k) v)

/-- `Delaunay.Triangulate`. -/
def Delaunay.Triangulate (orders : ℕ → MapOrder) (d : Delaunay) : List Triangle :=
  ((Delaunay.steps orders 0 d.points d).Finalize).triangles

/-! ## Auxiliary definitions for the statements -/

/-- Twice the signed area of the triangle `p1 p2 p3`; it is zero exactly when
the three points are collinear. -/
def signedArea2 (p1 p2 p3 : Point) : ℚ :=
  (p2.X - p1.X) * (p3.Y - p1.Y) - (p2.Y - p1.Y) * (p3.X - p1.X)

/-- The comparison `d < r` of two square roots: on the radicands. -/
def Sqrt.lt (d r : Sqrt) : Bool :=
  if d.isNaN || r.isNaN then false
  else Flt.le d.radicand r.radicand && !Flt.le r.radicand d.radicand

/-- The point `p` lies strictly inside the circle of centre `t.Circumcenter`
and radius `t.Circumradius`. -/
def Triangle.strictlyInside (t : Triangle) (p : Point) : Bool :=
  (p.toF.Distance t.Circumcenter).lt t.Circumradius

/-- The read `edges[e]`, zero for a key that is absent. -/
def EdgeMap.get : EdgeMap → Edge → ℕ
  | [], _ => 0
  | (k, c) :: m, e => if k = e then c else EdgeMap.get m e

/-- The map is well formed: every key once, every count positive. -/
def EdgeMap.WF (m : EdgeMap) : Prop :=
  (m.map Prod.fst).Nodup ∧ ∀ p ∈ m, 0 < p.2

/-- The test that every call of `TriangulationStep` of the run on the points
`vs`, visiting each map in the order it is stored, creates at most one triangle
without a vertex of the super-triangle. -/
def smallSteps : List Point → Delaunay → Bool
  | [], _ => true
  | v :: vs, d =>
    match scanTriangles v d.triangles [] [] with
    | (kept, edges) =>
      match newTriangles v edges with
      | created =>
        decide ((created.filter
          (fun t => !t.UsesAnyOfVertices d.superTriangleVertices)).length ≤ 1) &&
        smallSteps vs { d with triangles := kept ++ created }


/-- The containment test of `TriangulationStep`:
`t.Circumradius > 0 && v.Distance(t.Circumcenter) <= t.Circumradius`. -/
def Triangle.contains (t : Triangle) (v : Point) : Bool :=
  t.Circumradius.pos && (v.toF.Distance t.Circumcenter).le t.Circumradius

/-- The first loop of `TriangulationStep` without the pruning check
`v.X - t.Circumcenter.X <= t.Circumradius`: only the containment test decides
whether a triangle is removed. -/
def scanTrianglesUnpruned (v : Point) :
    List Triangle → List Triangle → EdgeMap → List Triangle × EdgeMap
  | [], kept, edges => (kept.reverse, edges)
  | t :: rest, kept, edges =>
    if t.contains v then
      scanTrianglesUnpruned v rest kept (t.Edges.foldl EdgeMap.incr edges)
    else
      scanTrianglesUnpruned v rest (t :: kept) edges

/-- The variant of `TriangulationStep` without the pruning check. -/
def Delaunay.TriangulationStepUnpruned (order : MapOrder) (d : Delaunay) (v : Point) :
    Delaunay :=
  match scanTrianglesUnpruned v d.triangles [] [] with
  | (kept, edges) => { d with triangles := kept ++ newTriangles v (order edges) }

/-- The edges of the triangles that `TriangulationStep` removes for `v`, with
repetitions, in the order in which they are counted. -/
def Delaunay.removedEdges (d : Delaunay) (v : Point) : List Edge :=
  (d.triangles.filter (fun t => t.contains v)).flatMap Triangle.Edges

/-- The edges that occur exactly once among the edges of the removed
triangles. -/
def Delaunay.boundaryEdges (d : Delaunay) (v : Point) : List Edge :=
  (d.removedEdges v).filter (fun e => decide ((d.removedEdges v).count e = 1))

/-- The states reached from `InitDelaunay points` by calls of `TriangulationStep`
on points of the point list, the map visited in any order, and calls of
`Finalize`. -/
inductive Reachable (points : List Point) : Delaunay → Prop
  | init : Reachable points (InitDelaunay points)
  | step (d : Delaunay) (order : MapOrder) (v : Point) :
      Reachable points d → order.Valid → v ∈ d.Points →
      Reachable points (d.TriangulationStep order v)
  | finalize (d : Delaunay) : Reachable points d → Reachable points d.Finalize

/-- The invariant behind the distinct vertices: in every triangle of `l`, a
vertex is a vertex of the super-triangle (`sv`) or a point inserted before
(`processed`), and the vertices that are not in `sv` are pairwise distinct. -/
def DistinctInv (sv processed : List Point) (l : List Triangle) : Prop :=
  ∀ t ∈ l, (∀ p ∈ t.Vertices, p ∈ sv ∨ p ∈ processed) ∧
    (t.Vertices.filter (fun p => decide (p ∉ sv))).Nodup

/-- The two edges `e1`, `e2` that `Triangle.circumcenter` works with, after it
has replaced a horizontal `Edge(0)` or `Edge(1)` by `Edge(2)`. -/
def Triangle.chosenEdges (t : Triangle) : Delaunay.Edge × Delaunay.Edge :=
  (if t.Edge0.IsHorizontal then t.Edge2 else t.Edge0,
    if t.Edge0.IsHorizontal then t.Edge1
    else if t.Edge1.IsHorizontal then t.Edge2 else t.Edge1)

/-- The slope `(e.P2.Y - e.P1.Y) / (e.P2.X - e.P1.X)` of an edge, by which
`Triangle.circumcenter` divides `-1`. -/
def Edge.slope (e : Edge) : Flt :=
  Flt.fin (e.P2.Y - e.P1.Y) / Flt.fin (e.P2.X - e.P1.X)

/-- The denominators of the divisions that `Triangle.circumcenter` evaluates,
in the order of the source: for `e1` and then for `e2` the difference
`P2.X - P1.X` and the slope, and last `m1 - m2`.  The sentinel branch divides
nothing. -/
def Triangle.denominators (t : Triangle) : List Flt :=
  if absLtEps (t.P1.Y - t.P2.Y) && absLtEps (t.P2.Y - t.P3.Y) then []
  else
    match t.chosenEdges with
    | (e1, e2) =>
      [Flt.fin (e1.P2.X - e1.P1.X), e1.slope, Flt.fin (e2.P2.X - e2.P1.X), e2.slope,
        e1.bisectorSlope - e2.bisectorSlope]

/-! ## Arithmetic of `Flt` on rationals -/

namespace Flt
@[simp]
theorem fin_add (a b : ℚ) : (fin a + fin b : Flt) = fin (a + b) := rfl
@[simp]
theorem fin_sub (a b : ℚ) : (fin a - fin b : Flt) = fin (a - b) := by
  show add (fin a) (neg (fin b)) = _
  simp [add, neg, sub_eq_add_neg]
@[simp]
theorem fin_mul (a b : ℚ) : (fin a * fin b : Flt) = fin (a * b) := rfl
theorem fin_div (a b : ℚ) (h : b ≠ 0) : (fin a / fin b : Flt) = fin (a / b) := by
  show div (fin a) (fin b) = _
  simp [div, h]
theorem fin_div_zero (a : ℚ) :
    (fin a / fin 0 : Flt) = if 0 < a then pinf else if a < 0 then ninf else nan := by
  show div (fin a) (fin 0) = _
  simp [div]
@[simp]
theorem fin_div_pinf (a : ℚ) : (fin a / pinf : Flt) = fin 0 := rfl
@[simp]
theorem fin_div_ninf (a : ℚ) : (fin a / ninf : Flt) = fin 0 := rfl
end Flt

/-- the two ways `NewEdge` can store a pair -/
theorem NewEdge_cases (a b : Point) : NewEdge a b = ⟨a, b⟩ ∨ NewEdge a b = ⟨b, a⟩ := by
  unfold NewEdge; split <;> simp

theorem sortSlice_three {α : Type} (less : α → α → Bool) (a b c : α) :
    sortSlice less [a, b, c] = [a, b, c] ∨ sortSlice less [a, b, c] = [a, c, b] ∨
    sortSlice less [a, b, c] = [b, a, c] ∨ sortSlice less [a, b, c] = [b, c, a] ∨
    sortSlice less [a, b, c] = [c, a, b] ∨ sortSlice less [a, b, c] = [c, b, a] := by
  cases h1 : less b a <;> cases h2 : less c a <;> cases h3 : less c b <;>
    simp [sortSlice, sinkLeft, h1, h2, h3]

/-- The stored vertices of `NewTriangle` are the three arguments in some order,
and the two cached values are those of `Triangle.circumcenter`. -/
theorem NewTriangle_cases (p1 p2 p3 : Point) :
    ∃ v0 v1 v2 : Point,
      ([v0, v1, v2] = [p1, p2, p3] ∨ [v0, v1, v2] = [p1, p3, p2] ∨
       [v0, v1, v2] = [p2, p1, p3] ∨ [v0, v1, v2] = [p2, p3, p1] ∨
       [v0, v1, v2] = [p3, p1, p2] ∨ [v0, v1, v2] = [p3, p2, p1]) ∧
      NewTriangle p1 p2 p3 =
        ⟨v0, v1, v2,
          (Triangle.circumcenter ⟨v0, v1, v2, ⟨Flt.fin 0, Flt.fin 0⟩, Sqrt.zero⟩).1,
          (Triangle.circumcenter ⟨v0, v1, v2, ⟨Flt.fin 0, Flt.fin 0⟩, Sqrt.zero⟩).2⟩ := by
  unfold NewTriangle
  rcases sortSlice_three
    (fun a b => decide ((NewPoint ((p1.X + p2.X + p3.X) / 3) ((p1.Y + p2.Y + p3.Y) / 3)).AngleTo a >
      (NewPoint ((p1.X + p2.X + p3.X) / 3) ((p1.Y + p2.Y + p3.Y) / 3)).AngleTo b)) p1 p2 p3
    with h | h | h | h | h | h <;> simp only [h]
  · exact ⟨p1, p2, p3, by simp, rfl⟩
  · exact ⟨p1, p3, p2, by simp, rfl⟩
  · exact ⟨p2, p1, p3, by simp, rfl⟩
  · exact ⟨p2, p3, p1, by simp, rfl⟩
  · exact ⟨p3, p1, p2, by simp, rfl⟩
  · exact ⟨p3, p2, p1, by simp, rfl⟩

/-! ## The comparisons with `eps` -/

/-- Two equal values pass the test `math.Abs(a - b) < eps`. -/
theorem absLtEps_zero : absLtEps 0 = true := by
  simp only [absLtEps, abs_zero, decide_eq_true_eq]
  norm_num [eps]

/-- The test `math.Abs(a - b) < eps` does not depend on the order of `a` and
`b`. -/
theorem absLtEps_sub_comm (a b : ℚ) : absLtEps (a - b) = absLtEps (b - a) := by
  simp only [absLtEps, abs_sub_comm]

/-- An edge is horizontal when the two points given to `NewEdge` pass the test
`math.Abs(a.Y - b.Y) < eps`, whichever order it stores them in. -/
theorem NewEdge_isHorizontal (a b : Point) :
    (NewEdge a b).IsHorizontal = absLtEps (a.Y - b.Y) := by
  rcases NewEdge_cases a b with h | h <;> rw [h]
  · rfl
  · exact absLtEps_sub_comm b.Y a.Y

/-! ## The order in which the map of `TriangulationStep` is visited -/

/-- The first loop of `TriangulationStep` keeps, in their order, the triangles that
the point does not remove, and counts the edges of the removed ones. -/
theorem scanTriangles_eq (v : Point) (l kept : List Triangle) (edges : EdgeMap) :
    scanTriangles v l kept edges =
      (kept.reverse ++ l.filter (fun t => !t.removedBy v),
        ((l.filter (fun t => t.removedBy v)).flatMap Triangle.Edges).foldl
          EdgeMap.incr edges) := by
  induction l generalizing kept edges with
  | nil => simp [scanTriangles]
  | cons t rest ih =>
    unfold scanTriangles
    by_cases h : t.removedBy v
    · simp [h, ih, List.foldl_append]
    · simp [h, ih]

/-- After `edges[e] += 1` the count of `e` is one more and the other counts are
unchanged. -/
theorem EdgeMap.get_incr (m : EdgeMap) (e k : Edge) :
    (m.incr e).get k = m.get k + if e = k then 1 else 0 := by
  induction m with
  | nil => simp [EdgeMap.incr, EdgeMap.get]
  | cons p m ih =>
    obtain ⟨k0, c0⟩ := p
    by_cases h : k0 = e
    · subst h
      by_cases h2 : k0 = k <;> simp [EdgeMap.incr, EdgeMap.get, h2]
    · by_cases h2 : k0 = k
      · subst h2
        simp [EdgeMap.incr, EdgeMap.get, h, Ne.symm h]
      · simp [EdgeMap.incr, EdgeMap.get, h, h2, ih]

/-- The statement `edges[e] += 1` adds the key `e` when it is absent and no
other key. -/
theorem EdgeMap.keys_incr (m : EdgeMap) (e : Edge) :
    (m.incr e).map Prod.fst =
      if e ∈ m.map Prod.fst then m.map Prod.fst else m.map Prod.fst ++ [e] := by
  induction m with
  | nil => simp [EdgeMap.incr]
  | cons p m ih =>
    obtain ⟨k0, c0⟩ := p
    by_cases h : k0 = e
    · subst h; simp [EdgeMap.incr]
    · simp only [EdgeMap.incr, h, if_false, List.map_cons, ih, List.mem_cons, Ne.symm h,
        false_or]
      split_ifs <;> simp

theorem EdgeMap.WF_incr (m : EdgeMap) (e : Edge) (h : m.WF) : (m.incr e).WF := by
  constructor
  · rw [EdgeMap.keys_incr]
    split_ifs with he
    · exact h.1
    · exact List.Nodup.append h.1 (List.nodup_singleton e) (by simpa using he)
  · have h2 := h.2
    clear h
    induction m with
    | nil => simp [EdgeMap.incr]
    | cons p m ih =>
      obtain ⟨k0, c0⟩ := p
      intro q hq
      by_cases hk : k0 = e
      · simp only [EdgeMap.incr, hk, if_true, List.mem_cons] at hq
        rcases hq with rfl | hq
        · simp
        · exact h2 q (List.mem_cons_of_mem _ hq)
      · simp only [EdgeMap.incr, hk, if_false, List.mem_cons] at hq
        rcases hq with rfl | hq
        · exact h2 _ (List.mem_cons_self _ _)
        · exact ih (fun p hp => h2 p (List.mem_cons_of_mem _ hp)) q hq

theorem EdgeMap.WF_foldl (es : List Edge) (m : EdgeMap) (h : m.WF) :
    (es.foldl EdgeMap.incr m).WF := by
  induction es generalizing m with
  | nil => exact h
  | cons e es ih => exact ih _ (EdgeMap.WF_incr m e h)

theorem EdgeMap.get_foldl (es : List Edge) (m : EdgeMap) (k : Edge) :
    (es.foldl EdgeMap.incr m).get k = m.get k + es.count k := by
  induction es generalizing m with
  | nil => simp
  | cons e es ih =>
    rw [List.foldl_cons, ih, EdgeMap.get_incr, List.count_cons]
    by_cases h : e = k <;> simp [h, add_comm, add_assoc]

/-- The entries of a well-formed map are its positive counts. -/
theorem EdgeMap.mem_iff_get (m : EdgeMap) (h : m.WF) (k : Edge) (c : ℕ) :
    (k, c) ∈ m ↔ m.get k = c ∧ 0 < c := by
  induction m with
  | nil => simp [EdgeMap.get]; omega
  | cons p m ih =>
    obtain ⟨k0, c0⟩ := p
    have hnd : k0 ∉ m.map Prod.fst := (List.nodup_cons.mp h.1).1
    have hwf : EdgeMap.WF m :=
      ⟨(List.nodup_cons.mp h.1).2, fun p hp => h.2 p (List.mem_cons_of_mem _ hp)⟩
    have hc0 : 0 < c0 := h.2 (k0, c0) (List.mem_cons_self _ _)
    by_cases hk : k0 = k
    · subst hk
      simp only [List.mem_cons, Prod.mk.injEq, true_and, EdgeMap.get, if_true]
      constructor
      · rintro (rfl | hm)
        · exact ⟨rfl, hc0⟩
        · exact absurd (List.mem_map_of_mem Prod.fst hm) hnd
      · rintro ⟨rfl, _⟩; exact Or.inl rfl
    · simp only [List.mem_cons, Prod.mk.injEq, EdgeMap.get, hk, if_false, Ne.symm hk,
        false_and, false_or]
      exact ih hwf

theorem EdgeMap.perm_of_get_eq (m1 m2 : EdgeMap) (h1 : m1.WF) (h2 : m2.WF)
    (h : ∀ k, m1.get k = m2.get k) : m1.Perm m2 := by
  apply (List.perm_ext_iff_of_nodup (List.Nodup.of_map _ h1.1) (List.Nodup.of_map _ h2.1)).2
  rintro ⟨k, c⟩
  rw [EdgeMap.mem_iff_get m1 h1, EdgeMap.mem_iff_get m2 h2, h k]

/-- Counting the same edges in another order gives the same entries, up to
their order in the map. -/
theorem EdgeMap.foldl_perm (es1 es2 : List Edge) (h : es1.Perm es2) :
    (es1.foldl EdgeMap.incr []).Perm (es2.foldl EdgeMap.incr []) := by
  have hwf : EdgeMap.WF [] := ⟨by simp, by simp⟩
  apply EdgeMap.perm_of_get_eq _ _ (EdgeMap.WF_foldl _ _ hwf) (EdgeMap.WF_foldl _ _ hwf)
  intro k
  rw [EdgeMap.get_foldl, EdgeMap.get_foldl, h.count_eq]

theorem TriangulationStep_triangles (order : MapOrder) (d : Delaunay) (v : Point) :
    (d.TriangulationStep order v).triangles =
      d.triangles.filter (fun t => !t.removedBy v) ++
        newTriangles v (order (((d.triangles.filter (fun t => t.removedBy v)).flatMap
          Triangle.Edges).foldl EdgeMap.incr [])) := by
  simp [Delaunay.TriangulationStep, scanTriangles_eq]

theorem TriangulationStep_vertices (order : MapOrder) (d : Delaunay) (v : Point) :
    (d.TriangulationStep order v).superTriangleVertices = d.superTriangleVertices := by
  simp [Delaunay.TriangulationStep]

theorem newTriangles_perm (v : Point) (m1 m2 : EdgeMap) (h : m1.Perm m2) :
    (newTriangles v m1).Perm (newTriangles v m2) :=
  h.filterMap _

theorem created_perm (o1 o2 : MapOrder) (h1 : o1.Valid) (h2 : o2.Valid)
    (l1 l2 : List Triangle) (v : Point) (h : l1.Perm l2) :
    (newTriangles v (o1 (((l1.filter (fun t => t.removedBy v)).flatMap
        Triangle.Edges).foldl EdgeMap.incr []))).Perm
      (newTriangles v (o2 (((l2.filter (fun t => t.removedBy v)).flatMap
        Triangle.Edges).foldl EdgeMap.incr []))) := by
  apply newTriangles_perm
  exact ((h1 _).trans (EdgeMap.foldl_perm _ _ ((h.filter _).flatMap_right _))).trans
    (h2 _).symm

/-- One `TriangulationStep` on two lists with the same triangles gives two lists
with the same triangles, whatever the order in which the two maps are visited. -/
theorem TriangulationStep_perm (o1 o2 : MapOrder) (h1 : o1.Valid) (h2 : o2.Valid)
    (d1 d2 : Delaunay) (v : Point) (h : d1.triangles.Perm d2.triangles) :
    (d1.TriangulationStep o1 v).triangles.Perm (d2.TriangulationStep o2 v).triangles := by
  rw [TriangulationStep_triangles, TriangulationStep_triangles]
  exact List.Perm.append (h.filter _) (created_perm o1 o2 h1 h2 _ _ v h)

theorem perm_eq_of_length_le_one {α : Type} (l1 l2 : List α) (h : l1.Perm l2)
    (hl : l2.length ≤ 1) : l1 = l2 := by
  match l2, hl with
  | [], _ => exact List.Perm.eq_nil h
  | [a], _ => exact List.perm_singleton.mp h

theorem valid_id : MapOrder.Valid id := fun m => List.Perm.refl m

/-- One `TriangulationStep` that creates at most one triangle passing the test
`F` keeps the sub-list of the triangles passing `F` independent of the order in
which the map is visited. -/
theorem TriangulationStep_filter (F : Triangle → Bool) (o : MapOrder) (ho : o.Valid)
    (d c : Delaunay) (v : Point) (hp : d.triangles.Perm c.triangles)
    (hf : d.triangles.filter F = c.triangles.filter F)
    (hs : ((newTriangles v (((c.triangles.filter (fun t => t.removedBy v)).flatMap
        Triangle.Edges).foldl EdgeMap.incr [])).filter F).length ≤ 1) :
    (d.TriangulationStep o v).triangles.filter F =
      (c.TriangulationStep id v).triangles.filter F := by
  have hcomm : ∀ (G : Triangle → Bool) (l : List Triangle),
      (l.filter G).filter F = (l.filter F).filter G := by
    intro G l; simp [List.filter_filter, Bool.and_comm]
  rw [TriangulationStep_triangles, TriangulationStep_triangles, List.filter_append,
    List.filter_append, hcomm, hcomm, hf]
  congr 1
  exact perm_eq_of_length_le_one _ _ ((created_perm o id ho valid_id _ _ v hp).filter F) hs

theorem steps_vertices (o : ℕ → MapOrder) (vs : List Point) : ∀ (k : ℕ) (d : Delaunay),
    (Delaunay.steps o k vs d).superTriangleVertices = d.superTriangleVertices := by
  induction vs with
  | nil => intro k d; rfl
  | cons v vs ih =>
    intro k d
    simp only [Delaunay.steps]
    rw [ih, TriangulationStep_vertices]

theorem steps_perm (o1 o2 : ℕ → MapOrder) (h1 : ∀ k, (o1 k).Valid) (h2 : ∀ k, (o2 k).Valid)
    (vs : List Point) : ∀ (k1 k2 : ℕ) (d1 d2 : Delaunay),
    d1.triangles.Perm d2.triangles →
    (Delaunay.steps o1 k1 vs d1).triangles.Perm (Delaunay.steps o2 k2 vs d2).triangles := by
  induction vs with
  | nil => intro k1 k2 d1 d2 hp; exact hp
  | cons v vs ih =>
    intro k1 k2 d1 d2 hp
    simp only [Delaunay.steps]
    exact ih _ _ _ _ (TriangulationStep_perm _ _ (h1 k1) (h2 k2) d1 d2 v hp)

theorem steps_filter (o : ℕ → MapOrder) (h : ∀ k, (o k).Valid) (sv : List Point)
    (vs : List Point) : ∀ (k1 k2 : ℕ) (d c : Delaunay),
    d.triangles.Perm c.triangles →
    d.triangles.filter (fun t => !t.UsesAnyOfVertices sv) =
      c.triangles.filter (fun t => !t.UsesAnyOfVertices sv) →
    c.superTriangleVertices = sv →
    smallSteps vs c = true →
    (Delaunay.steps o k1 vs d).triangles.filter (fun t => !t.UsesAnyOfVertices sv) =
      (Delaunay.steps (fun _ => id) k2 vs c).triangles.filter
        (fun t => !t.UsesAnyOfVertices sv) := by
  induction vs with
  | nil => intro k1 k2 d c _ hf _ _; exact hf
  | cons v vs ih =>
    intro k1 k2 d c hp hf hv hs
    simp only [Delaunay.steps]
    simp only [smallSteps, scanTriangles_eq, List.reverse_nil, List.nil_append,
      Bool.and_eq_true, decide_eq_true_eq, hv] at hs
    apply ih
    · exact TriangulationStep_perm _ _ (h k1) valid_id d c v hp
    · exact TriangulationStep_filter _ _ (h k1) d c v hp hf hs.1
    · rw [TriangulationStep_vertices, hv]
    · have : c.TriangulationStep id v =
          ⟨c.triangles.filter (fun t => !t.removedBy v) ++
            newTriangles v (((c.triangles.filter (fun t => t.removedBy v)).flatMap
              Triangle.Edges).foldl EdgeMap.incr []),
            c.supertriangle, c.points, c.superTriangleVertices⟩ := by
        simp [Delaunay.TriangulationStep, scanTriangles_eq]
      rw [this, hv]; exact hs.2

/-- The triangles returned by `Triangulate` are the same up to their order in
the list, whatever the order in which the maps are visited. -/
theorem Triangulate_perm (o1 o2 : ℕ → MapOrder) (h1 : ∀ k, (o1 k).Valid)
    (h2 : ∀ k, (o2 k).Valid) (d : Delaunay) :
    (d.Triangulate o1).Perm (d.Triangulate o2) := by
  simp only [Delaunay.Triangulate, Delaunay.Finalize, steps_vertices]
  exact (steps_perm o1 o2 h1 h2 d.points 0 0 d d (List.Perm.refl _)).filter _

/-- When every step creates at most one triangle without a vertex of the
super-triangle, `Triangulate` returns the same list whatever the order in which
the maps are visited. -/
theorem Triangulate_eq_of_smallSteps (o : ℕ → MapOrder) (h : ∀ k, (o k).Valid)
    (d : Delaunay) (hs : smallSteps d.points d = true) :
    d.Triangulate o = d.Triangulate (fun _ => id) := by
  simp only [Delaunay.Triangulate, Delaunay.Finalize, steps_vertices]
  exact steps_filter o h d.superTriangleVertices d.points 0 0 d d (List.Perm.refl _) rfl rfl hs

/-! ## Sorting by `sort.Slice` -/

/-- Moving an element into the sorted prefix keeps the elements. -/
theorem sinkLeft_perm {α : Type} (less : α → α → Bool) (x : α) (l : List α) :
    (sinkLeft less x l).Perm (x :: l) := by
  induction l with
  | nil => simp [sinkLeft]
  | cons y rest ih =>
    unfold sinkLeft
    split_ifs
    · exact (List.Perm.cons y ih).trans (List.Perm.swap x y rest)
    · exact List.Perm.refl _

/-- The result of `sortSlice` has the elements of the slice. -/
theorem sortSlice_perm {α : Type} (less : α → α → Bool) (data : List α) :
    (sortSlice less data).Perm data := by
  unfold sortSlice
  refine (List.reverse_perm _).trans ?_
  suffices h : ∀ acc : List α,
      (data.foldl (fun acc x => sinkLeft less x acc) acc).Perm (data ++ acc) by
    simpa using h []
  induction data with
  | nil => intro acc; simp
  | cons x rest ih =>
    intro acc
    rw [List.foldl_cons]
    refine (ih _).trans ?_
    refine (List.Perm.append_left rest (sinkLeft_perm less x acc)).trans ?_
    simp [List.perm_middle]

/-- Moving a point into a prefix sorted by `X` keeps it sorted (the prefix is held
reversed). -/
theorem sinkLeft_sorted (x : Point) (l : List Point)
    (h : l.Pairwise (fun a b => b.X ≤ a.X)) :
    (sinkLeft (fun a b => decide (a.X < b.X)) x l).Pairwise (fun a b => b.X ≤ a.X) := by
  induction l with
  | nil => simp [sinkLeft]
  | cons y rest ih =>
    unfold sinkLeft
    have h' := List.pairwise_cons.mp h
    by_cases hxy : x.X < y.X
    · simp only [hxy, decide_True, if_true]
      rw [List.pairwise_cons]
      refine ⟨?_, ih h'.2⟩
      intro z hz
      rcases List.mem_cons.mp ((sinkLeft_perm _ x rest).mem_iff.mp hz) with hz | hz
      · rw [hz]; exact le_of_lt hxy
      · exact h'.1 z hz
    · simp only [hxy, decide_False, if_false, Bool.false_eq_true]
      rw [List.pairwise_cons]
      refine ⟨?_, h⟩
      intro z hz
      rcases List.mem_cons.mp hz with hz | hz
      · rw [hz]; exact not_lt.mp hxy
      · exact le_trans (h'.1 z hz) (not_lt.mp hxy)

/-- The result of `sortSlice` with the comparison of `InitDelaunay` is in
non-decreasing order of `X`. -/
theorem sortSlice_sorted (data : List Point) :
    (sortSlice (fun a b => decide (a.X < b.X)) data).Pairwise (fun a b => a.X ≤ b.X) := by
  unfold sortSlice
  rw [List.pairwise_reverse]
  suffices h : ∀ acc : List Point, acc.Pairwise (fun a b => b.X ≤ a.X) →
      (data.foldl (fun acc x => sinkLeft (fun a b => decide (a.X < b.X)) x acc) acc).Pairwise
        (fun a b => b.X ≤ a.X) from h [] List.Pairwise.nil
  induction data with
  | nil => intro acc h; exact h
  | cons x rest ih => intro acc h; exact ih _ (sinkLeft_sorted x acc h)

/-! ## The angle bucket -/

/-- The bucket of a direction and of the opposite direction are the same. -/
theorem atan2Bucket_neg (y x : ℚ) : atan2Bucket (-y) (-x) = atan2Bucket y x := by
  simp only [atan2Bucket, Rat.neg_num, Rat.neg_den, neg_mul]
  generalize x.num * (y.den : ℤ) = a
  generalize y.num * (x.den : ℤ) = b
  by_cases h : b < 0 ∨ (b = 0 ∧ a < 0)
  · have h' : ¬ (-b < 0 ∨ (-b = 0 ∧ -a < 0)) := by omega
    rw [if_pos h, if_neg h']
  · by_cases h0 : a = 0 ∧ b = 0
    · obtain ⟨rfl, rfl⟩ := h0
      simp
    · have h' : -b < 0 ∨ (-b = 0 ∧ -a < 0) := by omega
      rw [if_neg h, if_pos h', neg_neg, neg_neg]

/-! ## The pruning check and the edges of the removed triangles -/

/-- The addition of `Flt` is `Flt.add`. -/
theorem Flt.add_def (a b : Flt) : a + b = Flt.add a b := rfl

/-- The subtraction of `Flt` is `Flt.add` of the opposite. -/
theorem Flt.sub_def (a b : Flt) : a - b = Flt.add a (Flt.neg b) := rfl

/-- The multiplication of `Flt` is `Flt.mul`. -/
theorem Flt.mul_def (a b : Flt) : a * b = Flt.mul a b := rfl

/-- When the pruning check fails, the containment test fails too. -/
theorem Triangle.contains_of_pruned (t : Triangle) (v : Point)
    (h : t.Circumradius.geFlt (Flt.fin v.X - t.Circumcenter.X) = false) :
    t.contains v = false := by
  obtain ⟨p1, p2, p3, ⟨cx, cy⟩, ⟨r⟩⟩ := t
  cases cx <;> cases cy <;> cases r <;>
    simp [Triangle.contains, Sqrt.geFlt, Sqrt.pos, Sqrt.le, Sqrt.isNaN, FPoint.Distance,
      Point.toF, Flt.le, Flt.add_def, Flt.sub_def, Flt.mul_def, Flt.add, Flt.mul,
      Flt.neg, Flt.sign] at h ⊢
  rename_i cx cy s
  intro _ _ h3
  have h4 := (h h3).2
  nlinarith [mul_self_nonneg (cy + -v.Y)]

/-- The test of `TriangulationStep` with the pruning check is the containment
test alone. -/
theorem Triangle.removedBy_eq (t : Triangle) (v : Point) : t.removedBy v = t.contains v := by
  unfold Triangle.removedBy
  by_cases h : t.Circumradius.geFlt (Flt.fin v.X - t.Circumcenter.X) = true
  · rw [if_pos h]
    unfold Triangle.contains
    cases t.Circumradius.pos && (v.toF.Distance t.Circumcenter).le t.Circumradius <;> rfl
  · rw [if_neg h, Triangle.contains_of_pruned t v (by simpa using h)]

/-- The first loop without the pruning check computes what the first loop of the
source computes. -/
theorem scanTrianglesUnpruned_eq (v : Point) (l kept : List Triangle) (edges : EdgeMap) :
    scanTrianglesUnpruned v l kept edges = scanTriangles v l kept edges := by
  induction l generalizing kept edges with
  | nil => rfl
  | cons t rest ih =>
    unfold scanTrianglesUnpruned scanTriangles
    rw [Triangle.removedBy_eq, ih, ih]

/-- No edge is twice in the list of the boundary edges. -/
theorem boundaryEdges_nodup (d : Delaunay) (v : Point) : (d.boundaryEdges v).Nodup := by
  unfold Delaunay.boundaryEdges
  rw [List.nodup_iff_count_le_one]
  intro e
  by_cases hp : (d.removedEdges v).count e = 1
  · rw [List.count_filter (by simpa using hp)]
    omega
  · rw [List.count_eq_zero_of_not_mem]
    · omega
    · intro hmem
      exact hp (by simpa using (List.mem_filter.mp hmem).2)

/-- The boundary edges are the edges counted exactly once. -/
theorem mem_boundaryEdges (d : Delaunay) (v : Point) (e : Edge) :
    e ∈ d.boundaryEdges v ↔ (d.removedEdges v).count e = 1 := by
  unfold Delaunay.boundaryEdges
  rw [List.mem_filter, decide_eq_true_eq]
  constructor
  · exact fun h => h.2
  · intro h
    have hpos : 0 < (d.removedEdges v).count e := by omega
    exact ⟨List.count_pos_iff.mp hpos, h⟩

/-! ## Where the vertices of the triangles come from -/

/-- `TriangulationStep` leaves the point list unchanged. -/
theorem TriangulationStep_points (order : MapOrder) (d : Delaunay) (v : Point) :
    (d.TriangulationStep order v).points = d.points := by
  simp [Delaunay.TriangulationStep]

/-- The stored vertices of `NewTriangle a b c` are `a`, `b`, `c` in some order. -/
theorem NewTriangle_vertices (a b c : Point) :
    (NewTriangle a b c).Vertices.Perm [a, b, c] := by
  obtain ⟨v0, v1, v2, hperm, hT⟩ := NewTriangle_cases a b c
  rw [hT]
  simp only [Triangle.Vertices]
  rcases hperm with h | h | h | h | h | h <;>
    (simp only [List.cons.injEq, and_true] at h
     obtain ⟨rfl, rfl, rfl⟩ := h
     first
       | exact List.Perm.refl _
       | exact List.Perm.swap _ _ _
       | exact (List.Perm.swap _ _ _).cons _
       | exact (List.reverse_perm [_, _, _]).symm
       | exact (List.reverse_perm [_, _, _])
       | exact @List.perm_append_comm _ [_, _] [_]
       | exact @List.perm_append_comm _ [_] [_, _])

/-- An entry of the map of counted edges is an edge of the list. -/
theorem EdgeMap.key_mem (es : List Edge) (e : Edge) (c : ℕ)
    (h : (e, c) ∈ es.foldl EdgeMap.incr []) : e ∈ es := by
  have hwf : EdgeMap.WF (es.foldl EdgeMap.incr []) := EdgeMap.WF_foldl _ _ ⟨by simp, by simp⟩
  have hg := (EdgeMap.mem_iff_get _ hwf e c).mp h
  rw [EdgeMap.get_foldl] at hg
  simp only [EdgeMap.get, zero_add] at hg
  have hpos : 0 < es.count e := by omega
  exact List.count_pos_iff.mp hpos

/-- A triangle of the list after `TriangulationStep` was in the list before, or
its vertices are the point `v` and two vertices, at two different places, of a
triangle that was in the list before. -/
theorem mem_TriangulationStep (order : MapOrder) (h : order.Valid) (d : Delaunay)
    (v : Point) (t : Triangle) (ht : t ∈ (d.TriangulationStep order v).triangles) :
    t ∈ d.triangles ∨ ∃ t0 ∈ d.triangles, ∃ x y : Point,
      ((x = t0.P1 ∧ y = t0.P2) ∨ (x = t0.P2 ∧ y = t0.P3) ∨ (x = t0.P3 ∧ y = t0.P1)) ∧
      t.Vertices.Perm [v, x, y] := by
  rw [TriangulationStep_triangles, List.mem_append] at ht
  rcases ht with ht | ht
  · exact Or.inl (List.mem_filter.mp ht).1
  · right
    unfold newTriangles at ht
    obtain ⟨⟨e, c⟩, hec, hsome⟩ := List.mem_filterMap.mp ht
    have hec2 := EdgeMap.key_mem _ e c ((h _).mem_iff.mp hec)
    obtain ⟨t0, ht0, he⟩ := List.mem_flatMap.mp hec2
    have ht0' := (List.mem_filter.mp ht0).1
    by_cases hc : c = 1
    · simp only [hc, if_true, Option.some.injEq] at hsome
      have key : ∀ x y : Point, e = NewEdge x y → t.Vertices.Perm [v, x, y] := by
        intro x y hxy
        rw [← hsome]
        refine (NewTriangle_vertices v e.P1 e.P2).trans ?_
        rcases NewEdge_cases x y with h1 | h1 <;> rw [hxy, h1]
        exact (List.Perm.swap _ _ _).cons _
      simp only [Triangle.Edges, Triangle.Edge0, Triangle.Edge1, Triangle.Edge2,
        List.mem_cons, List.mem_singleton, List.not_mem_nil, or_false] at he
      rcases he with he | he | he
      · exact ⟨t0, ht0', t0.P1, t0.P2, Or.inl ⟨rfl, rfl⟩, key _ _ he⟩
      · exact ⟨t0, ht0', t0.P2, t0.P3, Or.inr (Or.inl ⟨rfl, rfl⟩), key _ _ he⟩
      · exact ⟨t0, ht0', t0.P3, t0.P1, Or.inr (Or.inr ⟨rfl, rfl⟩), key _ _ he⟩
    · simp [hc] at hsome

/-- Two vertices at two different places of a triangle inherit the distinctness
of its vertices that pass the test `f`. -/
theorem pair_filter_nodup (f : Point → Bool) (t0 : Triangle) (x y : Point)
    (hxy : (x = t0.P1 ∧ y = t0.P2) ∨ (x = t0.P2 ∧ y = t0.P3) ∨ (x = t0.P3 ∧ y = t0.P1))
    (h : (t0.Vertices.filter f).Nodup) : ([x, y].filter f).Nodup := by
  have hsub : List.Subperm [x, y] t0.Vertices := by
    simp only [Triangle.Vertices]
    rcases hxy with ⟨rfl, rfl⟩ | ⟨rfl, rfl⟩ | ⟨rfl, rfl⟩
    · exact (List.Sublist.cons₂ _ (List.Sublist.cons₂ _ (List.nil_sublist _))).subperm
    · exact (List.Sublist.cons _ (List.Sublist.refl _)).subperm
    · exact ⟨[t0.P1, t0.P3], List.Perm.swap _ _ _,
        List.Sublist.cons₂ _ (List.Sublist.cons _ (List.Sublist.refl _))⟩
  obtain ⟨l, hl, hs⟩ := hsub
  exact (hl.filter f).nodup_iff.mp ((hs.filter f).nodup h)

/-- One `TriangulationStep` on a point that is a vertex of the super-triangle or
was not inserted before preserves `DistinctInv`. -/
theorem DistinctInv_step (sv processed : List Point) (order : MapOrder) (ho : order.Valid)
    (d : Delaunay) (v : Point) (hinv : DistinctInv sv processed d.triangles)
    (hv : v ∈ sv ∨ v ∉ processed) :
    DistinctInv sv (v :: processed) (d.TriangulationStep order v).triangles := by
  intro t ht
  rcases mem_TriangulationStep order ho d v t ht with h1 | ⟨t0, ht0, x, y, hxy, hperm⟩
  · obtain ⟨ha, hb⟩ := hinv t h1
    exact ⟨fun p hp => (ha p hp).imp id (List.mem_cons_of_mem _), hb⟩
  · obtain ⟨ha, hb⟩ := hinv t0 ht0
    have hx : x ∈ t0.Vertices := by
      rcases hxy with ⟨h1, _⟩ | ⟨h1, _⟩ | ⟨h1, _⟩ <;> rw [h1] <;> simp [Triangle.Vertices]
    have hy : y ∈ t0.Vertices := by
      rcases hxy with ⟨_, h1⟩ | ⟨_, h1⟩ | ⟨_, h1⟩ <;> rw [h1] <;> simp [Triangle.Vertices]
    constructor
    · intro p hp
      have hp' := hperm.mem_iff.mp hp
      simp only [List.mem_cons, List.mem_singleton, List.not_mem_nil, or_false] at hp'
      rcases hp' with rfl | rfl | rfl
      · exact Or.inr (List.mem_cons_self _ _)
      · exact (ha _ hx).imp id (List.mem_cons_of_mem _)
      · exact (ha _ hy).imp id (List.mem_cons_of_mem _)
    · rw [(hperm.filter _).nodup_iff]
      have hpair := pair_filter_nodup (fun p => decide (p ∉ sv)) t0 x y hxy hb
      by_cases hvs : v ∈ sv
      · rw [List.filter_cons_of_neg (by simpa using hvs)]
        exact hpair
      · rw [List.filter_cons_of_pos (by simpa using hvs), List.nodup_cons]
        refine ⟨?_, hpair⟩
        intro hmem
        have hvp : v ∉ processed := hv.resolve_left hvs
        obtain ⟨hm, _⟩ := List.mem_filter.mp hmem
        simp only [List.mem_cons, List.mem_singleton, List.not_mem_nil, or_false] at hm
        rcases hm with rfl | rfl
        · exact hvp ((ha _ hx).resolve_left hvs)
        · exact hvp ((ha _ hy).resolve_left hvs)

/-- The run of `TriangulationStep` on points among which those that are not
vertices of the super-triangle are pairwise distinct preserves `DistinctInv`. -/
theorem DistinctInv_steps (sv : List Point) (orders : ℕ → MapOrder)
    (ho : ∀ k, (orders k).Valid) (vs : List Point) :
    ∀ (processed : List Point) (k : ℕ) (d : Delaunay),
      DistinctInv sv processed d.triangles →
      (∀ v ∈ vs, v ∈ sv ∨ v ∉ processed) →
      (vs.filter (fun p => decide (p ∉ sv))).Nodup →
      ∃ processed', DistinctInv sv processed' (Delaunay.steps orders k vs d).triangles := by
  induction vs with
  | nil => intro processed k d h _ _; exact ⟨processed, h⟩
  | cons v vs ih =>
    intro processed k d h hvs hnd
    simp only [Delaunay.steps]
    apply ih (v :: processed) (k + 1) _
      (DistinctInv_step sv processed _ (ho k) d v h (hvs v (List.mem_cons_self _ _)))
    · intro w hw
      by_cases hws : w ∈ sv
      · exact Or.inl hws
      · right
        intro hmem
        rcases List.mem_cons.mp hmem with rfl | hmem
        · rw [List.filter_cons_of_pos (by simpa using hws), List.nodup_cons] at hnd
          exact hnd.1 (List.mem_filter.mpr ⟨hw, by simpa using hws⟩)
        · exact ((hvs w (List.mem_cons_of_mem _ hw)).resolve_left hws) hmem
    · by_cases hvs' : v ∈ sv
      · rwa [List.filter_cons_of_neg (by simpa using hvs')] at hnd
      · rw [List.filter_cons_of_pos (by simpa using hvs'), List.nodup_cons] at hnd
        exact hnd.2


/-! ## The denominators of `Triangle.circumcenter` -/

/-- The slope of a vertical edge whose ends are at different heights is `+Inf`
or `-Inf`. -/
theorem Edge.slope_vertical (e : Edge) (h : e.P1.Y ≠ e.P2.Y)
    (hx : e.P2.X - e.P1.X = 0) : e.slope = Flt.pinf ∨ e.slope = Flt.ninf := by
  unfold Edge.slope
  have hy : e.P2.Y - e.P1.Y ≠ 0 := sub_ne_zero.mpr (Ne.symm h)
  rw [hx, Flt.fin_div_zero]
  rcases lt_or_gt_of_ne hy with h1 | h1
  · have : ¬ (0 < e.P2.Y - e.P1.Y) := not_lt.mpr h1.le
    simp [this, h1]
  · simp [h1]

/-- Outside the sentinel branch, each of the two edges that
`Triangle.circumcenter` works with joins two vertices of different `Y`: a
horizontal `Edge(0)` or `Edge(1)` has been replaced by `Edge(2)`. -/
theorem Triangle.chosenEdges_not_level (t : Triangle)
    (hguard : (absLtEps (t.P1.Y - t.P2.Y) && absLtEps (t.P2.Y - t.P3.Y)) = false) :
    t.chosenEdges.1.P1.Y ≠ t.chosenEdges.1.P2.Y ∧
    t.chosenEdges.2.P1.Y ≠ t.chosenEdges.2.P2.Y := by
  have ends : ∀ a b : Point, a.Y ≠ b.Y → (NewEdge a b).P1.Y ≠ (NewEdge a b).P2.Y := by
    intro a b hab
    rcases NewEdge_cases a b with h | h <;> rw [h]
    · exact hab
    · exact Ne.symm hab
  have self : ∀ a b : ℚ, absLtEps (a - b) = false → a ≠ b := by
    intro a b h hab
    rw [hab, sub_self, absLtEps_zero] at h
    exact Bool.noConfusion h
  simp only [Triangle.chosenEdges, Triangle.Edge0, Triangle.Edge1, Triangle.Edge2,
    NewEdge_isHorizontal]
  cases h0 : absLtEps (t.P1.Y - t.P2.Y)
  · have hy12 : t.P1.Y ≠ t.P2.Y := self _ _ h0
    cases h1 : absLtEps (t.P2.Y - t.P3.Y)
    · simp only [Bool.false_eq_true, if_false]
      exact ⟨ends _ _ hy12, ends _ _ (self _ _ h1)⟩
    · have hy31 : t.P3.Y ≠ t.P1.Y := by
        intro h
        rw [← h, absLtEps_sub_comm, h1] at h0
        exact Bool.noConfusion h0
      simp only [Bool.false_eq_true, if_false, if_true]
      exact ⟨ends _ _ hy12, ends _ _ hy31⟩
  · have h1 : absLtEps (t.P2.Y - t.P3.Y) = false := by
      rw [h0, Bool.true_and] at hguard
      exact hguard
    have hy31 : t.P3.Y ≠ t.P1.Y := by
      intro h
      rw [h, absLtEps_sub_comm, h0] at h1
      exact Bool.noConfusion h1
    simp only [if_true]
    exact ⟨ends _ _ hy31, ends _ _ (self _ _ h1)⟩

/-! ## The claims -/

set_option maxRecDepth 1000000

/-- Claim C1, refuted by the code: on the input `(3,5)`, `(2,3)`,
`(3 + 2⁻²¹, 0)`, `(4,4)`, whatever the order in which the maps are visited,
`Triangulate` returns the triangle `(3,5)`, `(4,4)`, `(3 + 2⁻²¹, 0)`, and the
input point `(2,3)` lies strictly inside the circle given by its circumcenter
and circumradius. -/
theorem Triangulate_circle_not_empty (orders : ℕ → MapOrder)
    (h : ∀ k, (orders k).Valid) :
    (⟨2, 3⟩ : Point) ∈ ([⟨3, 5⟩, ⟨2, 3⟩, ⟨6291457 / 2097152, 0⟩, ⟨4, 4⟩] : List Point) ∧
    NewTriangle ⟨3, 5⟩ ⟨4, 4⟩ ⟨6291457 / 2097152, 0⟩ ∈
      (InitDelaunay [⟨3, 5⟩, ⟨2, 3⟩, ⟨6291457 / 2097152, 0⟩, ⟨4, 4⟩]).Triangulate orders ∧
    (NewTriangle ⟨3, 5⟩ ⟨4, 4⟩ ⟨6291457 / 2097152, 0⟩).strictlyInside ⟨2, 3⟩ = true := by
  refine ⟨by decide!, ?_, by decide!⟩
  rw [(Triangulate_perm orders (fun _ => id) h (fun _ => valid_id) _).mem_iff]
  decide!

/-- Claim C1 is refuted also when every map is visited in the reverse of the
order in which it is stored. -/
theorem Triangulate_circle_not_empty_witness :
    (⟨2, 3⟩ : Point) ∈ ([⟨3, 5⟩, ⟨2, 3⟩, ⟨6291457 / 2097152, 0⟩, ⟨4, 4⟩] : List Point) ∧
    NewTriangle ⟨3, 5⟩ ⟨4, 4⟩ ⟨6291457 / 2097152, 0⟩ ∈
      (InitDelaunay [⟨3, 5⟩, ⟨2, 3⟩, ⟨6291457 / 2097152, 0⟩, ⟨4, 4⟩]).Triangulate
        (fun _ => List.reverse) ∧
    (NewTriangle ⟨3, 5⟩ ⟨4, 4⟩ ⟨6291457 / 2097152, 0⟩).strictlyInside ⟨2, 3⟩ = true :=
  Triangulate_circle_not_empty (fun _ => List.reverse) (fun _ m => List.reverse_perm m)

/-- Claim C2.  On the points `(2,4)`, `(4,2)`, `(5,8)`, `(8,3)`, whatever the
order in which the maps are visited, `Triangulate` returns the list of the two
triangles `NewTriangle (2,4) (4,2) (5,8)` and `NewTriangle (5,8) (8,3) (4,2)`,
in this order. -/
theorem Triangulate_four_points (orders : ℕ → MapOrder) (h : ∀ k, (orders k).Valid) :
    (InitDelaunay [⟨2, 4⟩, ⟨4, 2⟩, ⟨5, 8⟩, ⟨8, 3⟩]).Triangulate orders =
      [NewTriangle ⟨2, 4⟩ ⟨4, 2⟩ ⟨5, 8⟩, NewTriangle ⟨5, 8⟩ ⟨8, 3⟩ ⟨4, 2⟩] := by
  rw [Triangulate_eq_of_smallSteps orders h _ (by decide!)]
  decide!

/-- Claim C2 when every map is visited in the reverse of the order in which it
is stored. -/
theorem Triangulate_four_points_witness :
    (InitDelaunay [⟨2, 4⟩, ⟨4, 2⟩, ⟨5, 8⟩, ⟨8, 3⟩]).Triangulate (fun _ => List.reverse) =
      [NewTriangle ⟨2, 4⟩ ⟨4, 2⟩ ⟨5, 8⟩, NewTriangle ⟨5, 8⟩ ⟨8, 3⟩ ⟨4, 2⟩] :=
  Triangulate_four_points (fun _ => List.reverse) (fun _ m => List.reverse_perm m)

/-- Claim C3, refuted by the code: the points `(0,2)`, `(2,1)`, `(3,0)` are not
collinear, and on them `Triangulate` returns no triangle at all, whatever the
order in which the maps are visited; so no point of their convex hull lies in a
returned triangle. -/
theorem Triangulate_hull_not_covered (orders : ℕ → MapOrder)
    (h : ∀ k, (orders k).Valid) :
    signedArea2 ⟨0, 2⟩ ⟨2, 1⟩ ⟨3, 0⟩ ≠ 0 ∧
    (InitDelaunay [⟨0, 2⟩, ⟨2, 1⟩, ⟨3, 0⟩]).Triangulate orders = [] := by
  refine ⟨by decide!, ?_⟩
  have hp := Triangulate_perm orders (fun _ => id) h (fun _ => valid_id)
    (InitDelaunay [⟨0, 2⟩, ⟨2, 1⟩, ⟨3, 0⟩])
  have hc : (InitDelaunay [⟨0, 2⟩, ⟨2, 1⟩, ⟨3, 0⟩]).Triangulate (fun _ => id) = [] := by
    decide!
  rw [hc] at hp
  exact hp.eq_nil

/-- Claim C3 is refuted also when every map is visited in the reverse of the
order in which it is stored. -/
theorem Triangulate_hull_not_covered_witness :
    signedArea2 ⟨0, 2⟩ ⟨2, 1⟩ ⟨3, 0⟩ ≠ 0 ∧
    (InitDelaunay [⟨0, 2⟩, ⟨2, 1⟩, ⟨3, 0⟩]).Triangulate (fun _ => List.reverse) = [] :=
  Triangulate_hull_not_covered (fun _ => List.reverse) (fun _ m => List.reverse_perm m)

/-- Claim C5, refuted by the code: the points `A = (0,1)` and `B = (2⁻²¹,0)` are
different, yet `NewEdge A B` stores `(B, A)` and `NewEdge B A` stores `(A, B)`,
so the two edges are not equal. -/
theorem NewEdge_not_symmetric :
    (⟨0, 1⟩ : Point) ≠ ⟨1 / 2097152, 0⟩ ∧
    NewEdge ⟨0, 1⟩ ⟨1 / 2097152, 0⟩ = ⟨⟨1 / 2097152, 0⟩, ⟨0, 1⟩⟩ ∧
    NewEdge ⟨1 / 2097152, 0⟩ ⟨0, 1⟩ = ⟨⟨0, 1⟩, ⟨1 / 2097152, 0⟩⟩ ∧
    NewEdge ⟨0, 1⟩ ⟨1 / 2097152, 0⟩ ≠ NewEdge ⟨1 / 2097152, 0⟩ ⟨0, 1⟩ := by
  decide!

/-- Claim C6, refuted by the code: for `a = (1000,100)`, `b = (-1000,-102)`,
`c = (0,2)` the triangle built from `(b, a, c)` stores `b` first and the one
built from `(a, b, c)` stores `a` first, so the two triangles are not equal. -/
theorem NewTriangle_order_dependent :
    (NewTriangle ⟨1000, 100⟩ ⟨-1000, -102⟩ ⟨0, 2⟩).P1 = ⟨1000, 100⟩ ∧
    (NewTriangle ⟨-1000, -102⟩ ⟨1000, 100⟩ ⟨0, 2⟩).P1 = ⟨-1000, -102⟩ ∧
    NewTriangle ⟨-1000, -102⟩ ⟨1000, 100⟩ ⟨0, 2⟩ ≠
      NewTriangle ⟨1000, 100⟩ ⟨-1000, -102⟩ ⟨0, 2⟩ := by
  decide!

/-- Claim C7.  After `Finalize` the triangle list is the previous list filtered,
in the same order, by the test that none of `P1`, `P2`, `P3` is a vertex of the
super-triangle: it is a sub-list of the previous list, none of its triangles
has such a vertex, and every previous triangle without such a vertex is in it.
The other fields of the state are unchanged. -/
theorem Finalize_spec (d : Delaunay) :
    d.Finalize.triangles =
      d.triangles.filter (fun t => decide (t.P1 ∉ d.superTriangleVertices ∧
        t.P2 ∉ d.superTriangleVertices ∧ t.P3 ∉ d.superTriangleVertices)) ∧
    d.Finalize.triangles.Sublist d.triangles ∧
    (∀ t ∈ d.Finalize.triangles, t.P1 ∉ d.superTriangleVertices ∧
        t.P2 ∉ d.superTriangleVertices ∧ t.P3 ∉ d.superTriangleVertices) ∧
    (∀ t ∈ d.triangles, t.P1 ∉ d.superTriangleVertices ∧
        t.P2 ∉ d.superTriangleVertices ∧ t.P3 ∉ d.superTriangleVertices →
        t ∈ d.Finalize.triangles) ∧
    d.Finalize.points = d.points ∧
    d.Finalize.superTriangleVertices = d.superTriangleVertices ∧
    d.Finalize.supertriangle = d.supertriangle := by
  have key : d.Finalize.triangles =
      d.triangles.filter (fun t => decide (t.P1 ∉ d.superTriangleVertices ∧
        t.P2 ∉ d.superTriangleVertices ∧ t.P3 ∉ d.superTriangleVertices)) := by
    simp only [Delaunay.Finalize]
    apply List.filter_congr
    intro t _
    simp [Triangle.UsesAnyOfVertices, Triangle.Vertices]
  refine ⟨key, ?_, ?_, ?_, rfl, rfl, rfl⟩
  · rw [key]; exact List.filter_sublist _
  · intro t ht; rw [key] at ht; simpa using (List.mem_filter.mp ht).2
  · intro t ht h; rw [key]; exact List.mem_filter.mpr ⟨ht, by simpa using h⟩

/-- Claim C8.  `Finalize` twice is `Finalize` once, on every state. -/
theorem Finalize_idempotent (d : Delaunay) : d.Finalize.Finalize = d.Finalize := by
  simp [Delaunay.Finalize, List.filter_filter]

/-- Claim C9 as stated is refuted: the points `(0,0)`, `(1,2)`, `(5,10)` are
collinear, and `NewTriangle` gives them the circumcenter `(+Inf, -Inf)` and the
circumradius `+Inf`, not the sentinel `(0,0)` and `0`. -/
theorem NewTriangle_collinear_not_sentinel :
    signedArea2 ⟨0, 0⟩ ⟨1, 2⟩ ⟨5, 10⟩ = 0 ∧
    NewTriangle ⟨0, 0⟩ ⟨1, 2⟩ ⟨5, 10⟩ =
      ⟨⟨0, 0⟩, ⟨1, 2⟩, ⟨5, 10⟩, ⟨Flt.pinf, Flt.ninf⟩, ⟨Flt.pinf⟩⟩ := by
  decide!

/-- Claim C9, amended.  When the y-coordinates of the three points pass, two by
two, the test `math.Abs(a - b) < eps` of the source, `NewTriangle` stores the
sentinel circumcenter `(0,0)` and the circumradius `0`. -/
theorem NewTriangle_sentinel (p1 p2 p3 : Point)
    (h12 : absLtEps (p1.Y - p2.Y) = true) (h23 : absLtEps (p2.Y - p3.Y) = true)
    (h13 : absLtEps (p1.Y - p3.Y) = true) :
    (NewTriangle p1 p2 p3).Circumcenter = ⟨Flt.fin 0, Flt.fin 0⟩ ∧
    (NewTriangle p1 p2 p3).Circumradius = Sqrt.zero := by
  obtain ⟨v0, v1, v2, hperm, hT⟩ := NewTriangle_cases p1 p2 p3
  have h21 := absLtEps_sub_comm p1.Y p2.Y ▸ h12
  have h32 := absLtEps_sub_comm p2.Y p3.Y ▸ h23
  have h31 := absLtEps_sub_comm p1.Y p3.Y ▸ h13
  rw [hT]
  rcases hperm with h' | h' | h' | h' | h' | h' <;>
    (simp only [List.cons.injEq, and_true] at h'
     obtain ⟨rfl, rfl, rfl⟩ := h'
     simp [Triangle.circumcenter, *])

/-- Claim C9, amended, at the points `(0,0)`, `(1, 2⁻²¹)`, `(5,0)`, whose
y-coordinates are not all equal. -/
theorem NewTriangle_sentinel_witness :
    (NewTriangle ⟨0, 0⟩ ⟨1, 1 / 2097152⟩ ⟨5, 0⟩).Circumcenter = ⟨Flt.fin 0, Flt.fin 0⟩ ∧
    (NewTriangle ⟨0, 0⟩ ⟨1, 1 / 2097152⟩ ⟨5, 0⟩).Circumradius = Sqrt.zero :=
  NewTriangle_sentinel ⟨0, 0⟩ ⟨1, 1 / 2097152⟩ ⟨5, 0⟩ (by decide!) (by decide!) (by decide!)

/-- Claim C10 as stated is refuted: the index `3` is none of `0`, `1`, `2`, and
`Edge 3` returns the edge from `P1` to `P2` instead of aborting. -/
theorem Edge_three_returns :
    (3 : ℤ) ≠ 0 ∧ (3 : ℤ) ≠ 1 ∧ (3 : ℤ) ≠ 2 ∧
    (NewTriangle ⟨0, 0⟩ ⟨1, 0⟩ ⟨0, 1⟩).Edge 3 =
      some (NewEdge (NewTriangle ⟨0, 0⟩ ⟨1, 0⟩ ⟨0, 1⟩).P1 (NewTriangle ⟨0, 0⟩ ⟨1, 0⟩ ⟨0, 1⟩).P2) := by
  decide!

/-- Claim C10, amended.  `Edge index` aborts exactly when `index` is negative
and not a multiple of `3`; for every other index it returns the edge number
`index mod 3`: from `P1` to `P2`, from `P2` to `P3`, or from `P3` to `P1`. -/
theorem Edge_eq (t : Triangle) (index : ℤ) :
    t.Edge index =
      if index < 0 ∧ index % 3 ≠ 0 then none
      else if index % 3 = 0 then some (NewEdge t.P1 t.P2)
      else if index % 3 = 1 then some (NewEdge t.P2 t.P3)
      else some (NewEdge t.P3 t.P1) := by
  unfold Triangle.Edge
  rcases index with n | n
  · have h : Int.tmod (Int.ofNat n) 3 = ((n % 3 : ℕ) : ℤ) := rfl
    rw [h]
    have h3 : n % 3 < 3 := Nat.mod_lt _ (by norm_num)
    have h4 : (Int.ofNat n) % 3 = ((n % 3 : ℕ) : ℤ) := by simp
    rw [h4]
    have : ¬ (Int.ofNat n < 0) := by simp
    interval_cases h5 : n % 3 <;> simp [this]
  · have h : Int.tmod (Int.negSucc n) 3 = -(((n + 1) % 3 : ℕ) : ℤ) := rfl
    rw [h]
    have h3 : (n + 1) % 3 < 3 := Nat.mod_lt _ (by norm_num)
    have hneg : Int.negSucc n < 0 := Int.negSucc_lt_zero n
    have h4 : (Int.negSucc n) % 3 = (3 - ((n + 1) % 3 : ℕ)) % 3 := by
      rw [Int.negSucc_eq]; omega
    interval_cases h5 : (n + 1) % 3 <;> simp [hneg, h4]

/-- Claim C12, refuted by the code.  The points `(0,1)` and `(2⁻²¹,0)` are
different and each is greater than the other; and `(0,2)` is greater than
`(3·2⁻²²,1)`, which is greater than `(3·2⁻²¹,0)`, but `(0,2)` is not greater than
`(3·2⁻²¹,0)`: the relation `p.CompareTo q > 0` is neither asymmetric nor
transitive. -/
theorem CompareTo_not_order :
    ((⟨0, 1⟩ : Point) ≠ ⟨1 / 2097152, 0⟩ ∧
      Point.CompareTo ⟨0, 1⟩ ⟨1 / 2097152, 0⟩ > 0 ∧
      Point.CompareTo ⟨1 / 2097152, 0⟩ ⟨0, 1⟩ > 0) ∧
    (Point.CompareTo ⟨0, 2⟩ ⟨3 / 4194304, 1⟩ > 0 ∧
      Point.CompareTo ⟨3 / 4194304, 1⟩ ⟨3 / 2097152, 0⟩ > 0 ∧
      ¬ Point.CompareTo ⟨0, 2⟩ ⟨3 / 2097152, 0⟩ > 0) := by
  decide!

/-- Claim C13.  The point list of `InitDelaunay points` has the elements of
`points` and the three vertices of `boundingTriangle points`, each as many times,
in non-decreasing order of `X`; `PointCount` is the length of `points` plus 3;
the triangle list is the super-triangle alone. -/
theorem InitDelaunay_points (points : List Point) :
    (InitDelaunay points).Points.Perm (points ++ (boundingTriangle points).Vertices) ∧
    (InitDelaunay points).Points.Pairwise (fun a b => a.X ≤ b.X) ∧
    (InitDelaunay points).PointCount = points.length + 3 ∧
    (InitDelaunay points).Triangles = [boundingTriangle points] ∧
    (InitDelaunay points).supertriangle = boundingTriangle points := by
  refine ⟨sortSlice_perm _ _, sortSlice_sorted _, ?_, rfl, rfl⟩
  have h := (sortSlice_perm (fun a b => decide (a.X < b.X))
    (points ++ (boundingTriangle points).Vertices)).length_eq
  simpa [Triangle.Vertices] using h

/-- Claim C14.  On the same input, whatever the orders in which the maps of the
two runs are visited, the two lists returned by `Triangulate` have the same
triangles, each as many times: they differ by the order only. -/
theorem Triangulate_deterministic (points : List Point) (o1 o2 : ℕ → MapOrder)
    (h1 : ∀ k, (o1 k).Valid) (h2 : ∀ k, (o2 k).Valid) :
    ((InitDelaunay points).Triangulate o1).Perm ((InitDelaunay points).Triangulate o2) :=
  Triangulate_perm o1 o2 h1 h2 (InitDelaunay points)

/-- Claim C14 on the points `(3,5)`, `(2,3)`, `(3 + 2⁻²¹, 0)`, `(4,4)`, for the maps
visited in the order in which they are stored and in the reverse order. -/
theorem Triangulate_deterministic_witness :
    ((InitDelaunay [⟨3, 5⟩, ⟨2, 3⟩, ⟨6291457 / 2097152, 0⟩, ⟨4, 4⟩]).Triangulate
        (fun _ => id)).Perm
      ((InitDelaunay [⟨3, 5⟩, ⟨2, 3⟩, ⟨6291457 / 2097152, 0⟩, ⟨4, 4⟩]).Triangulate
        (fun _ => List.reverse)) :=
  Triangulate_deterministic _ _ _ (fun _ m => List.Perm.refl m)
    (fun _ m => List.reverse_perm m)

/-- Claim C15, refuted by the code.  `AngleTo` gives the same value to a direction
and to the opposite direction, for all points; from `(0,0)` the points `(1,2)`,
of bearing about 26.6 degrees, and `(-1,-2)` both get 53. -/
theorem AngleTo_opposite :
    (∀ p q : Point, p.AngleTo ⟨2 * p.X - q.X, 2 * p.Y - q.Y⟩ = p.AngleTo q) ∧
    Point.AngleTo ⟨0, 0⟩ ⟨1, 2⟩ = 53 ∧ Point.AngleTo ⟨0, 0⟩ ⟨-1, -2⟩ = 53 := by
  refine ⟨?_, by decide!, by decide!⟩
  intro p q
  unfold Point.AngleTo
  rw [← atan2Bucket_neg (q.X - p.X) (q.Y - p.Y)]
  congr 1 <;> ring

/-- Claim C16.  After `TriangulationStep` the triangle list is the old list
without the triangles that pass the containment test, in the same order,
followed by the created triangles; these are, up to their order, one triangle
`NewTriangle v e.P1 e.P2` for each boundary edge `e`; no boundary edge is listed
twice, and the boundary edges are the edges that occur exactly once among the
edges of the removed triangles. -/
theorem TriangulationStep_spec (order : MapOrder) (h : order.Valid) (d : Delaunay)
    (v : Point) :
    ∃ created : List Triangle,
      (d.TriangulationStep order v).triangles =
        d.triangles.filter (fun t => !t.contains v) ++ created ∧
      created.Perm ((d.boundaryEdges v).map (fun e => NewTriangle v e.P1 e.P2)) ∧
      (d.boundaryEdges v).Nodup ∧
      ∀ e, e ∈ d.boundaryEdges v ↔ (d.removedEdges v).count e = 1 := by
  have hfun : (fun t : Triangle => t.removedBy v) = (fun t => t.contains v) :=
    funext (fun t => Triangle.removedBy_eq t v)
  have hfun2 : (fun t : Triangle => !t.removedBy v) = (fun t => !t.contains v) :=
    funext (fun t => by rw [Triangle.removedBy_eq])
  refine ⟨newTriangles v (order ((d.removedEdges v).foldl EdgeMap.incr [])), ?_, ?_,
    boundaryEdges_nodup d v, mem_boundaryEdges d v⟩
  · rw [TriangulationStep_triangles, hfun2, hfun]
    rfl
  · have hwf : EdgeMap.WF ((d.removedEdges v).foldl EdgeMap.incr []) :=
      EdgeMap.WF_foldl _ _ ⟨by simp, by simp⟩
    refine (newTriangles_perm v _ _ (h _)).trans ?_
    show (newTriangles v ((d.removedEdges v).foldl EdgeMap.incr [])).Perm _
    have hmap : newTriangles v ((d.removedEdges v).foldl EdgeMap.incr []) =
        ((((d.removedEdges v).foldl EdgeMap.incr []).filter
          (fun ec => decide (ec.2 = 1))).map Prod.fst).map
            (fun e => NewTriangle v e.P1 e.P2) := by
      unfold newTriangles
      generalize (d.removedEdges v).foldl EdgeMap.incr [] = m
      induction m with
      | nil => rfl
      | cons p m ih =>
        by_cases hp : p.2 = 1
        · simp [List.filterMap_cons, List.filter_cons, hp, ih]
        · simp [List.filterMap_cons, List.filter_cons, hp, ih]
    rw [hmap]
    apply List.Perm.map
    apply (List.perm_ext_iff_of_nodup ?_ ?_).2
    · intro e
      constructor
      · intro he
        obtain ⟨⟨k, c⟩, hm, rfl⟩ := List.mem_map.mp he
        obtain ⟨hm1, hc⟩ := List.mem_filter.mp hm
        have hc1 : c = 1 := by simpa using hc
        subst hc1
        have hg := (EdgeMap.mem_iff_get _ hwf k 1).mp hm1
        rw [EdgeMap.get_foldl] at hg
        simp only [EdgeMap.get, zero_add] at hg
        have hg1 : List.count k (d.removedEdges v) = 1 := hg.1
        have hpos : 0 < List.count k (d.removedEdges v) := by omega
        exact List.mem_filter.mpr ⟨List.count_pos_iff.mp hpos, by simpa using hg1⟩
      · intro he
        obtain ⟨_, hc⟩ := List.mem_filter.mp he
        have hc1 : (d.removedEdges v).count e = 1 := by simpa using hc
        refine List.mem_map.mpr ⟨(e, 1), List.mem_filter.mpr ⟨?_, by simp⟩, rfl⟩
        apply (EdgeMap.mem_iff_get _ hwf e 1).mpr
        rw [EdgeMap.get_foldl]
        simp [EdgeMap.get, hc1]
    · exact (List.Nodup.sublist ((List.filter_sublist _).map Prod.fst) hwf.1)
    · exact boundaryEdges_nodup d v

/-- Claim C16 for the first step on the input `(0,0)`, the map visited in the
reverse of the order in which it is stored. -/
theorem TriangulationStep_spec_witness :
    ∃ created : List Triangle,
      ((InitDelaunay [⟨0, 0⟩]).TriangulationStep List.reverse ⟨-10, 10⟩).triangles =
        (InitDelaunay [⟨0, 0⟩]).triangles.filter (fun t => !t.contains ⟨-10, 10⟩) ++
          created ∧
      created.Perm (((InitDelaunay [⟨0, 0⟩]).boundaryEdges ⟨-10, 10⟩).map
        (fun e => NewTriangle ⟨-10, 10⟩ e.P1 e.P2)) ∧
      ((InitDelaunay [⟨0, 0⟩]).boundaryEdges ⟨-10, 10⟩).Nodup ∧
      ∀ e, e ∈ (InitDelaunay [⟨0, 0⟩]).boundaryEdges ⟨-10, 10⟩ ↔
        ((InitDelaunay [⟨0, 0⟩]).removedEdges ⟨-10, 10⟩).count e = 1 :=
  TriangulationStep_spec List.reverse (fun m => List.reverse_perm m)
    (InitDelaunay [⟨0, 0⟩]) ⟨-10, 10⟩

/-- Claim C17.  `TriangulationStep` gives the same state as its variant without
the pruning check, for every state, point and order of the map; and whenever
the pruning check `v.X - t.Circumcenter.X <= t.Circumradius` fails, the
containment test fails. -/
theorem TriangulationStep_pruning (order : MapOrder) (d : Delaunay) (v : Point) :
    d.TriangulationStep order v = d.TriangulationStepUnpruned order v ∧
    ∀ t : Triangle, t.Circumradius.geFlt (Flt.fin v.X - t.Circumcenter.X) = false →
      t.contains v = false := by
  refine ⟨?_, fun t ht => Triangle.contains_of_pruned t v ht⟩
  unfold Delaunay.TriangulationStep Delaunay.TriangulationStepUnpruned
  rw [scanTrianglesUnpruned_eq]

/-- Claim C18.  In every state reached from `InitDelaunay points` by calls of
`TriangulationStep` on points of the point list and calls of `Finalize`, the
three vertices of every triangle of `Triangles` are elements of `Points`. -/
theorem Reachable_vertices (points : List Point) (d : Delaunay) (h : Reachable points d) :
    ∀ t ∈ d.Triangles, t.P1 ∈ d.Points ∧ t.P2 ∈ d.Points ∧ t.P3 ∈ d.Points := by
  have key : ∀ t ∈ d.triangles, ∀ p ∈ t.Vertices, p ∈ d.points := by
    induction h with
    | init =>
      intro t ht p hp
      simp only [InitDelaunay, List.mem_singleton] at ht
      subst ht
      exact (sortSlice_perm _ _).mem_iff.mpr (List.mem_append_right _ hp)
    | step d order v _ ho hv ih =>
      intro t ht p hp
      rw [TriangulationStep_points]
      rcases mem_TriangulationStep order ho d v t ht with h1 | ⟨t0, ht0, x, y, hxy, hperm⟩
      · exact ih t h1 p hp
      · have hp' := hperm.mem_iff.mp hp
        simp only [List.mem_cons, List.mem_singleton, List.not_mem_nil, or_false] at hp'
        rcases hp' with rfl | rfl | rfl
        · exact hv
        · rcases hxy with ⟨h1, _⟩ | ⟨h1, _⟩ | ⟨h1, _⟩ <;> rw [h1] <;>
            exact ih t0 ht0 _ (by simp [Triangle.Vertices])
        · rcases hxy with ⟨_, h1⟩ | ⟨_, h1⟩ | ⟨_, h1⟩ <;> rw [h1] <;>
            exact ih t0 ht0 _ (by simp [Triangle.Vertices])
    | finalize d _ ih =>
      intro t ht p hp
      exact ih t (List.mem_filter.mp ht).1 p hp
  intro t ht
  exact ⟨key t ht _ (by simp [Triangle.Vertices]), key t ht _ (by simp [Triangle.Vertices]),
    key t ht _ (by simp [Triangle.Vertices])⟩

/-- Claim C18 for the state after `InitDelaunay` on `(2,4)`, `(4,2)`, `(5,8)`,
`(8,3)` and one `TriangulationStep` on the point `(4,2)` of the list: it has
three triangles. -/
theorem Reachable_vertices_witness :
    (⟨4, 2⟩ : Point) ∈ (InitDelaunay [⟨2, 4⟩, ⟨4, 2⟩, ⟨5, 8⟩, ⟨8, 3⟩]).Points ∧
    ((InitDelaunay [⟨2, 4⟩, ⟨4, 2⟩, ⟨5, 8⟩, ⟨8, 3⟩]).TriangulationStep List.reverse ⟨4, 2⟩).Triangles.length = 3 ∧
    ∀ t ∈ ((InitDelaunay [⟨2, 4⟩, ⟨4, 2⟩, ⟨5, 8⟩, ⟨8, 3⟩]).TriangulationStep List.reverse ⟨4, 2⟩).Triangles,
      t.P1 ∈ ((InitDelaunay [⟨2, 4⟩, ⟨4, 2⟩, ⟨5, 8⟩, ⟨8, 3⟩]).TriangulationStep List.reverse ⟨4, 2⟩).Points ∧
      t.P2 ∈ ((InitDelaunay [⟨2, 4⟩, ⟨4, 2⟩, ⟨5, 8⟩, ⟨8, 3⟩]).TriangulationStep List.reverse ⟨4, 2⟩).Points ∧
      t.P3 ∈ ((InitDelaunay [⟨2, 4⟩, ⟨4, 2⟩, ⟨5, 8⟩, ⟨8, 3⟩]).TriangulationStep List.reverse ⟨4, 2⟩).Points :=
  ⟨by decide!, by decide!, Reachable_vertices [⟨2, 4⟩, ⟨4, 2⟩, ⟨5, 8⟩, ⟨8, 3⟩] _
    (Reachable.step _ List.reverse ⟨4, 2⟩ Reachable.init (fun m => List.reverse_perm m)
      (by decide!))⟩

/-- Claim C19 as stated is refuted: the points `(0,0)`, `(1,0)`, `(0,1)` are not
collinear, and for their triangle `Triangle.circumcenter` divides by
`P2.X - P1.X = 0` on the vertical edge it has chosen, which gives the slope
`-Inf`; the circumcenter is `(1/2, 1/2)` all the same. -/
theorem circumcenter_divides_by_zero :
    signedArea2 ⟨0, 0⟩ ⟨1, 0⟩ ⟨0, 1⟩ ≠ 0 ∧
    (NewTriangle ⟨0, 0⟩ ⟨1, 0⟩ ⟨0, 1⟩).denominators =
      [Flt.fin (-1), Flt.fin (-1), Flt.fin 0, Flt.ninf, Flt.fin 1] ∧
    (NewTriangle ⟨0, 0⟩ ⟨1, 0⟩ ⟨0, 1⟩).Circumcenter = ⟨Flt.fin (1 / 2), Flt.fin (1 / 2)⟩ := by
  decide!

/-- Claim C19, amended.  Only horizontal edges are special-cased.  For every
triangle built by `NewTriangle`, either the sentinel branch is taken and nothing
is divided, or the denominators are those of the two chosen edges, each of which
joins two vertices of different `Y`; when `P2.X - P1.X` is zero for a chosen
edge, its slope is `+Inf` or `-Inf`. -/
theorem circumcenter_chosen_edges (p1 p2 p3 : Point) :
    ((absLtEps ((NewTriangle p1 p2 p3).P1.Y - (NewTriangle p1 p2 p3).P2.Y) &&
        absLtEps ((NewTriangle p1 p2 p3).P2.Y - (NewTriangle p1 p2 p3).P3.Y)) = true ∧
      (NewTriangle p1 p2 p3).denominators = []) ∨
    ((absLtEps ((NewTriangle p1 p2 p3).P1.Y - (NewTriangle p1 p2 p3).P2.Y) &&
        absLtEps ((NewTriangle p1 p2 p3).P2.Y - (NewTriangle p1 p2 p3).P3.Y)) = false ∧
      (NewTriangle p1 p2 p3).denominators =
        [Flt.fin ((NewTriangle p1 p2 p3).chosenEdges.1.P2.X -
            (NewTriangle p1 p2 p3).chosenEdges.1.P1.X),
          (NewTriangle p1 p2 p3).chosenEdges.1.slope,
          Flt.fin ((NewTriangle p1 p2 p3).chosenEdges.2.P2.X -
            (NewTriangle p1 p2 p3).chosenEdges.2.P1.X),
          (NewTriangle p1 p2 p3).chosenEdges.2.slope,
          (NewTriangle p1 p2 p3).chosenEdges.1.bisectorSlope -
            (NewTriangle p1 p2 p3).chosenEdges.2.bisectorSlope] ∧
      (NewTriangle p1 p2 p3).chosenEdges.1.P1.Y ≠ (NewTriangle p1 p2 p3).chosenEdges.1.P2.Y ∧
      (NewTriangle p1 p2 p3).chosenEdges.2.P1.Y ≠ (NewTriangle p1 p2 p3).chosenEdges.2.P2.Y ∧
      ((NewTriangle p1 p2 p3).chosenEdges.1.P2.X - (NewTriangle p1 p2 p3).chosenEdges.1.P1.X = 0 →
        (NewTriangle p1 p2 p3).chosenEdges.1.slope = Flt.pinf ∨
        (NewTriangle p1 p2 p3).chosenEdges.1.slope = Flt.ninf) ∧
      ((NewTriangle p1 p2 p3).chosenEdges.2.P2.X - (NewTriangle p1 p2 p3).chosenEdges.2.P1.X = 0 →
        (NewTriangle p1 p2 p3).chosenEdges.2.slope = Flt.pinf ∨
        (NewTriangle p1 p2 p3).chosenEdges.2.slope = Flt.ninf)) := by
  cases hg : (absLtEps ((NewTriangle p1 p2 p3).P1.Y - (NewTriangle p1 p2 p3).P2.Y) &&
      absLtEps ((NewTriangle p1 p2 p3).P2.Y - (NewTriangle p1 p2 p3).P3.Y))
  · right
    obtain ⟨hy1, hy2⟩ := Triangle.chosenEdges_not_level (NewTriangle p1 p2 p3) hg
    refine ⟨rfl, ?_, hy1, hy2, Edge.slope_vertical _ hy1, Edge.slope_vertical _ hy2⟩
    unfold Triangle.denominators
    rw [hg]
    rfl
  · left
    refine ⟨rfl, ?_⟩
    unfold Triangle.denominators
    rw [hg]
    rfl

/-- Claim C20 as stated is refuted: on the pairwise distinct points `(0,2)`,
`(2,1)`, `(3,0)`, after the first `TriangulationStep` of the run, which is on
the vertex `(-10,12)` of the super-triangle, the triangle list holds a triangle
whose vertices `P1` and `P3` are both `(-10,12)`. -/
theorem steps_repeated_vertex :
    ([⟨0, 2⟩, ⟨2, 1⟩, ⟨3, 0⟩] : List Point).Nodup ∧
    (⟨⟨-10, 12⟩, ⟨61 / 5, 4⟩, ⟨-10, 12⟩, ⟨Flt.nan, Flt.nan⟩, ⟨Flt.nan⟩⟩ : Triangle) ∈
      (Delaunay.steps (fun _ => id) 0 ((InitDelaunay [⟨0, 2⟩, ⟨2, 1⟩, ⟨3, 0⟩]).points.take 1)
        (InitDelaunay [⟨0, 2⟩, ⟨2, 1⟩, ⟨3, 0⟩])).triangles := by
  decide!

/-- Claim C20, amended.  For pairwise distinct input points, in the state reached
after any number `n` of the calls of `TriangulationStep` that `Triangulate`
makes, two vertices of a triangle are equal only when they are a vertex of the
super-triangle; so a triangle none of whose vertices is a vertex of the
super-triangle has three pairwise distinct vertices. -/
theorem steps_distinct_vertices (points : List Point) (hnd : points.Nodup)
    (orders : ℕ → MapOrder) (ho : ∀ k, (orders k).Valid) (n : ℕ) :
    ∀ t ∈ (Delaunay.steps orders 0 ((InitDelaunay points).points.take n)
        (InitDelaunay points)).triangles,
      (t.P1 = t.P2 → t.P1 ∈ (InitDelaunay points).superTriangleVertices) ∧
      (t.P2 = t.P3 → t.P2 ∈ (InitDelaunay points).superTriangleVertices) ∧
      (t.P1 = t.P3 → t.P1 ∈ (InitDelaunay points).superTriangleVertices) ∧
      (t.UsesAnyOfVertices (InitDelaunay points).superTriangleVertices = false →
        t.P1 ≠ t.P2 ∧ t.P2 ≠ t.P3 ∧ t.P1 ≠ t.P3) := by
  set sv := (InitDelaunay points).superTriangleVertices with hsv
  have hinit : DistinctInv sv [] (InitDelaunay points).triangles := by
    intro t ht
    simp only [InitDelaunay, List.mem_singleton] at ht
    subst ht
    refine ⟨fun p hp => Or.inl hp, ?_⟩
    rw [List.filter_eq_nil_iff.mpr]
    · exact List.nodup_nil
    · intro p hp
      have : p ∈ sv := hp
      simpa using this
  have hnd' : (((InitDelaunay points).points.take n).filter
      (fun p => decide (p ∉ sv))).Nodup := by
    refine List.Nodup.sublist ((List.take_sublist _ _).filter _) ?_
    have hperm : (InitDelaunay points).points.Perm (points ++ sv) := sortSlice_perm _ _
    rw [(hperm.filter _).nodup_iff, List.filter_append]
    have : sv.filter (fun p => decide (p ∉ sv)) = [] := by
      rw [List.filter_eq_nil_iff]
      intro p hp
      simpa using hp
    rw [this, List.append_nil]
    exact List.Nodup.sublist (List.filter_sublist _) hnd
  obtain ⟨processed, hinv⟩ := DistinctInv_steps sv orders ho _ [] 0 (InitDelaunay points)
    hinit (fun v _ => Or.inr (List.not_mem_nil v)) hnd'
  intro t ht
  obtain ⟨_, hb⟩ := hinv t ht
  have key : ∀ a b c : Point, t.Vertices.Perm [a, b, c] → a = b → a ∈ sv := by
    intro a b c hperm hab
    by_contra hn
    have h2 := (hperm.filter (fun p => decide (p ∉ sv))).nodup_iff.mp hb
    rw [← hab, List.filter_cons_of_pos (by simpa using hn),
      List.filter_cons_of_pos (by simpa using hn), List.nodup_cons] at h2
    exact h2.1 (List.mem_cons_self _ _)
  have h12 : t.P1 = t.P2 → t.P1 ∈ sv := key t.P1 t.P2 t.P3 (List.Perm.refl _)
  have h23 : t.P2 = t.P3 → t.P2 ∈ sv :=
    key t.P2 t.P3 t.P1 (@List.perm_append_comm _ [t.P1] [t.P2, t.P3])
  have h13 : t.P1 = t.P3 → t.P1 ∈ sv :=
    key t.P1 t.P3 t.P2 ((List.Perm.swap _ _ _).cons _)
  refine ⟨h12, h23, h13, ?_⟩
  intro huses
  simp only [Triangle.UsesAnyOfVertices, List.any_eq_false, decide_eq_true_eq,
    Triangle.Vertices, List.mem_cons, List.mem_singleton, List.not_mem_nil, or_false,
    forall_eq_or_imp, forall_eq] at huses
  exact ⟨fun h => huses.1 (h12 h), fun h => huses.2.1 (h23 h), fun h => huses.1 (h13 h)⟩

/-- Claim C20, amended, on the points `(2,4)`, `(4,2)`, `(5,8)`, `(8,3)` after the
seven calls of `TriangulationStep`: the state has triangles that repeat a vertex
of the super-triangle and triangles without any vertex of the
super-triangle. -/
theorem steps_distinct_vertices_witness :
    ([⟨2, 4⟩, ⟨4, 2⟩, ⟨5, 8⟩, ⟨8, 3⟩] : List Point).Nodup ∧
    (∃ t ∈ (Delaunay.steps (fun _ => List.reverse) 0 ((InitDelaunay [⟨2, 4⟩, ⟨4, 2⟩, ⟨5, 8⟩, ⟨8, 3⟩]).points.take 7)
        (InitDelaunay [⟨2, 4⟩, ⟨4, 2⟩, ⟨5, 8⟩, ⟨8, 3⟩])).triangles, t.P1 = t.P3) ∧
    (∃ t ∈ (Delaunay.steps (fun _ => List.reverse) 0 ((InitDelaunay [⟨2, 4⟩, ⟨4, 2⟩, ⟨5, 8⟩, ⟨8, 3⟩]).points.take 7)
        (InitDelaunay [⟨2, 4⟩, ⟨4, 2⟩, ⟨5, 8⟩, ⟨8, 3⟩])).triangles,
      t.UsesAnyOfVertices (InitDelaunay [⟨2, 4⟩, ⟨4, 2⟩, ⟨5, 8⟩, ⟨8, 3⟩]).superTriangleVertices = false) ∧
    ∀ t ∈ (Delaunay.steps (fun _ => List.reverse) 0 ((InitDelaunay [⟨2, 4⟩, ⟨4, 2⟩, ⟨5, 8⟩, ⟨8, 3⟩]).points.take 7)
        (InitDelaunay [⟨2, 4⟩, ⟨4, 2⟩, ⟨5, 8⟩, ⟨8, 3⟩])).triangles,
      (t.P1 = t.P2 → t.P1 ∈ (InitDelaunay [⟨2, 4⟩, ⟨4, 2⟩, ⟨5, 8⟩, ⟨8, 3⟩]).superTriangleVertices) ∧
      (t.P2 = t.P3 → t.P2 ∈ (InitDelaunay [⟨2, 4⟩, ⟨4, 2⟩, ⟨5, 8⟩, ⟨8, 3⟩]).superTriangleVertices) ∧
      (t.P1 = t.P3 → t.P1 ∈ (InitDelaunay [⟨2, 4⟩, ⟨4, 2⟩, ⟨5, 8⟩, ⟨8, 3⟩]).superTriangleVertices) ∧
      (t.UsesAnyOfVertices (InitDelaunay [⟨2, 4⟩, ⟨4, 2⟩, ⟨5, 8⟩, ⟨8, 3⟩]).superTriangleVertices = false →
        t.P1 ≠ t.P2 ∧ t.P2 ≠ t.P3 ∧ t.P1 ≠ t.P3) :=
  ⟨by decide!, by decide!, by decide!,
    steps_distinct_vertices [⟨2, 4⟩, ⟨4, 2⟩, ⟨5, 8⟩, ⟨8, 3⟩] (by decide!) (fun _ => List.reverse)
      (fun _ m => List.reverse_perm m) 7⟩

end Delaunay
